import Mathlib

/-!
# Circular queue (`circqueue`)

A shallow embedding of the Go package `circqueue` and a verification of its
bounded FIFO behaviour. The package exists in two revisions: the wrapping one
(`src/circqueue/circqueue.go`, namespace `Circqueue`) and the non-wrapping one
(`src/circqueue.go`, namespace `Circqueue.NoWrap`), which leaves the modulo out
of its index arithmetic.

Modelling conventions.

* A Go `int` is an `Int`. `make([]int, n)` panics for a negative `n` and for an
  `n` whose `8 * n` bytes exceed the runtime's allocation limit `maxAlloc`;
  below that limit it returns (memory itself is not bounded). Every sum the
  code forms is below `2 * cap`, and `cap = len(data) ≤ maxAlloc / 8 = 2^45`,
  so no intermediate value comes near `2^63`; the 64-bit wrap is therefore left
  out.
* Go's `%` truncates towards zero (`Int.tmod`) and panics on a zero divisor.
* Indexing a slice outside `[0, len)` panics. A panic is the `Except.error`
  branch of every operation.
* A method with a pointer receiver returns the receiver's state after the call
  together with its Go results; an `error` result is `Option GoError`
  (`none` is `nil`).
* The mutex only serialises callers. The development follows one caller, for
  which `Lock`/`Unlock` have no effect on the fields.
-/

namespace Circqueue

/-- The run-time panics the package can raise. -/
inductive Fault where
  | divideByZero
  | indexOutOfRange
  | makeSliceLen
  deriving DecidableEq, Repr

/-- The two error types of the package, each carrying its `err` string. -/
inductive GoError where
  | NoFreeCapErr (err : String)
  | QueueEmptyErr (err : String)
  deriving DecidableEq, Repr

/-- The method `Error()` of both error types returns the stored string. -/
def GoError.Error : GoError → String
  | .NoFreeCapErr err => err
  | .QueueEmptyErr err => err

/-- Constructor `newNoFreeCapErr`. -/
def newNoFreeCapErr : GoError := .NoFreeCapErr "Queue is full!"

/-- Constructor `newQueueEmptyErr`. -/
def newQueueEmptyErr : GoError := .QueueEmptyErr "Queue is empty!"

/-- Go's `a % b` on `int`. -/
def goMod (a b : Int) : Except Fault Int :=
  if b = 0 then .error .divideByZero else .ok (Int.tmod a b)

/-- The read `data[i]`. -/
def sliceGet (data : List Int) (i : Int) : Except Fault Int :=
  if 0 ≤ i ∧ i < (data.length : Int) then .ok (data.getD i.toNat 0)
  else .error .indexOutOfRange

/-- The write `data[i] = v`. -/
def sliceSet (data : List Int) (i : Int) (v : Int) : Except Fault (List Int) :=
  if 0 ≤ i ∧ i < (data.length : Int) then .ok (data.set i.toNat v)
  else .error .indexOutOfRange

/-- The allocation limit of the Go runtime on 64-bit platforms, in bytes
(heap addresses have 48 bits). -/
def maxAlloc : Int := 281474976710656

/-- The allocation `make([]int, n)`: `n` zeroed slots. The runtime panics with
`makeslice: len out of range` when `n` is negative or when the `8 * n` bytes of
`n` words exceed `maxAlloc`. -/
def makeSlice (n : Int) : Except Fault (List Int) :=
  if n < 0 ∨ maxAlloc < 8 * n then .error .makeSliceLen
  else .ok (List.replicate n.toNat 0)

/-- The struct `circularQueue` without its mutex. -/
structure circularQueue where
  data : List Int
  cap : Int
  curCap : Int
  head : Int
  deriving DecidableEq, Repr

/-- `NewCircularQueue(queueCap)`. -/
def NewCircularQueue (queueCap : Int) : Except Fault circularQueue :=
  match makeSlice queueCap with
  | .error f => .error f
  | .ok data => .ok { data := data, cap := queueCap, curCap := 0, head := 0 }

/-- `(cq *circularQueue) EnQueue(val)`. -/
def EnQueue (cq : circularQueue) (val : Int) :
    Except Fault (circularQueue × Option GoError) :=
  if cq.curCap ≠ cq.cap then
    match goMod (cq.head + cq.curCap) cq.cap with
    | .error f => .error f
    | .ok i =>
      match sliceSet cq.data i val with
      | .error f => .error f
      | .ok data => .ok ({ cq with data := data, curCap := cq.curCap + 1 }, none)
  else .ok (cq, some newNoFreeCapErr)

/-- `(cq *circularQueue) DeQueue()`. -/
def DeQueue (cq : circularQueue) : Except Fault (circularQueue × Option GoError) :=
  if cq.curCap ≠ 0 then
    match goMod (cq.head + 1) cq.cap with
    | .error f => .error f
    | .ok h => .ok ({ cq with head := h, curCap := cq.curCap - 1 }, none)
  else .ok (cq, some newQueueEmptyErr)

/-- `(cq *circularQueue) Front()`. -/
def Front (cq : circularQueue) : Except Fault (circularQueue × Int × Option GoError) :=
  if cq.curCap ≠ 0 then
    match sliceGet cq.data cq.head with
    | .error f => .error f
    | .ok v => .ok (cq, v, none)
  else .ok (cq, 0, some newQueueEmptyErr)

/-- `(cq *circularQueue) Rear()`. -/
def Rear (cq : circularQueue) : Except Fault (circularQueue × Int × Option GoError) :=
  if cq.curCap ≠ 0 then
    match goMod (cq.head + cq.curCap - 1) cq.cap with
    | .error f => .error f
    | .ok i =>
      match sliceGet cq.data i with
      | .error f => .error f
      | .ok v => .ok (cq, v, none)
  else .ok (cq, 0, some newQueueEmptyErr)

/-- `(cq *circularQueue) IsEmpty()`. -/
def IsEmpty (cq : circularQueue) : circularQueue × Bool :=
  (cq, decide (cq.curCap = 0))

/-- `(cq *circularQueue) IsFull()`. -/
def IsFull (cq : circularQueue) : circularQueue × Bool :=
  (cq, decide (cq.curCap = cq.cap))

/-- One call of the public interface. -/
inductive Op where
  | EnQueue (val : Int)
  | DeQueue
  | Front
  | Rear
  | IsEmpty
  | IsFull
  deriving DecidableEq, Repr

/-- What a call hands back to its caller. -/
inductive Ret where
  | err (e : Option GoError)
  | val (v : Int) (e : Option GoError)
  | bool (b : Bool)
  deriving DecidableEq, Repr

/-- Perform one call on a queue. -/
def step (cq : circularQueue) : Op → Except Fault (circularQueue × Ret)
  | .EnQueue val =>
    match EnQueue cq val with
    | .error f => .error f
    | .ok (cq1, e) => .ok (cq1, .err e)
  | .DeQueue =>
    match DeQueue cq with
    | .error f => .error f
    | .ok (cq1, e) => .ok (cq1, .err e)
  | .Front =>
    match Front cq with
    | .error f => .error f
    | .ok (cq1, v, e) => .ok (cq1, .val v e)
  | .Rear =>
    match Rear cq with
    | .error f => .error f
    | .ok (cq1, v, e) => .ok (cq1, .val v e)
  | .IsEmpty => .ok ((IsEmpty cq).1, .bool (IsEmpty cq).2)
  | .IsFull => .ok ((IsFull cq).1, .bool (IsFull cq).2)

/-- Perform a sequence of calls, collecting what each one returned. -/
def run (cq : circularQueue) : List Op → Except Fault (circularQueue × List Ret)
  | [] => .ok (cq, [])
  | op :: ops =>
    match step cq op with
    | .error f => .error f
    | .ok (cq1, r) =>
      match run cq1 ops with
      | .error f => .error f
      | .ok (cq2, rs) => .ok (cq2, r :: rs)

/-- Build a queue of capacity `c` and perform a sequence of calls on it. -/
def runFresh (c : Int) (ops : List Op) : Except Fault (circularQueue × List Ret) :=
  match NewCircularQueue c with
  | .error f => .error f
  | .ok cq => run cq ops

/-- A state is reachable for capacity `c` when some sequence of calls on
`NewCircularQueue c` ends in it. -/
def Reachable (c : Int) (s : circularQueue) : Prop :=
  ∃ ops rs, runFresh c ops = .ok (s, rs)

/-- The logical contents: the slots `(head + i) mod cap` for `i < curCap`. -/
def contents (cq : circularQueue) : List Int :=
  (List.range cq.curCap.toNat).map
    (fun (i : Nat) => cq.data.getD ((cq.head + (i : Int)) % cq.cap).toNat 0)

/-- The representation invariant of the queue. -/
structure Inv (cq : circularQueue) : Prop where
  len : (cq.data.length : Int) = cq.cap
  cur_nonneg : 0 ≤ cq.curCap
  cur_le : cq.curCap ≤ cq.cap
  head_nonneg : 0 ≤ cq.head
  head_lt : 0 < cq.cap → cq.head < cq.cap
  head_zero : cq.cap = 0 → cq.head = 0

/-- The calls `Front(); DeQueue()` repeated `n` times. -/
def frontDeQueuePairs : Nat → List Op
  | 0 => []
  | n + 1 => Op.Front :: Op.DeQueue :: frontDeQueuePairs n

/-- What `Front(); DeQueue()` pairs return when they succeed and the `Front`
calls observe the given values in order. -/
def frontDeQueueRets : List Int → List Ret
  | [] => []
  | v :: vs => Ret.val v none :: Ret.err none :: frontDeQueueRets vs

/-- The value handed to a call if that call is an `EnQueue` that returned `nil`. -/
def enqueuedBy : Op → Ret → Option Int
  | .EnQueue v, .err none => some v
  | _, _ => none

/-- The value of the most recent successful `EnQueue` in a history of calls and
their results, starting from `acc` for the history before it. -/
def lastEnQueued (acc : Option Int) : List Op → List Ret → Option Int
  | op :: ops, r :: rs =>
    match enqueuedBy op r with
    | some v => lastEnQueued (some v) ops rs
    | none => lastEnQueued acc ops rs
  | _, _ => acc

/-- What each call returns on a queue that is empty and full at once. -/
def capZeroRet : Op → Ret
  | .EnQueue _ => Ret.err (some (GoError.NoFreeCapErr "Queue is full!"))
  | .DeQueue => Ret.err (some (GoError.QueueEmptyErr "Queue is empty!"))
  | .Front => Ret.val 0 (some (GoError.QueueEmptyErr "Queue is empty!"))
  | .Rear => Ret.val 0 (some (GoError.QueueEmptyErr "Queue is empty!"))
  | .IsEmpty => Ret.bool true
  | .IsFull => Ret.bool true

/-- Whether a call is a `DeQueue` that returned `nil`. -/
def dequeuedBy : Op → Ret → Bool
  | .DeQueue, .err none => true
  | _, _ => false

/-- The number of `EnQueue` calls of a history that returned `nil`. -/
def countEnQueued : List Op → List Ret → Nat
  | op :: ops, r :: rs =>
    (if (enqueuedBy op r).isSome then 1 else 0) + countEnQueued ops rs
  | _, _ => 0

/-- The number of `DeQueue` calls of a history that returned `nil`. -/
def countDeQueued : List Op → List Ret → Nat
  | op :: ops, r :: rs =>
    (if dequeuedBy op r then 1 else 0) + countDeQueued ops rs
  | _, _ => 0

/-! ## The non-wrapping revision (`src/circqueue.go`)

The same package one directory up: the index of `EnQueue` and `Rear` and the
new `head` of `DeQueue` are not reduced modulo `cap`. -/

namespace NoWrap

/-- Constructor `NewNoFreeCapErr`. -/
def NewNoFreeCapErr : GoError := .NoFreeCapErr "Queue is full!"

/-- Constructor `NewQueueEmptyErr`. -/
def NewQueueEmptyErr : GoError := .QueueEmptyErr "Queue is empty!"

/-- The struct `CircularQueue` without its mutex. -/
structure CircularQueue where
  data : List Int
  cap : Int
  curCap : Int
  head : Int
  deriving DecidableEq, Repr

/-- `NewCircularQueue(queueCap)`. -/
def NewCircularQueue (queueCap : Int) : Except Fault CircularQueue :=
  match makeSlice queueCap with
  | .error f => .error f
  | .ok data => .ok { data := data, cap := queueCap, curCap := 0, head := 0 }

/-- `(cq *CircularQueue) EnQueue(val)`. -/
def EnQueue (cq : CircularQueue) (val : Int) :
    Except Fault (CircularQueue × Option GoError) :=
  if cq.curCap ≠ cq.cap then
    match sliceSet cq.data (cq.head + cq.curCap) val with
    | .error f => .error f
    | .ok data => .ok ({ cq with data := data, curCap := cq.curCap + 1 }, none)
  else .ok (cq, some NewNoFreeCapErr)

/-- `(cq *CircularQueue) DeQueue()`. -/
def DeQueue (cq : CircularQueue) : Except Fault (CircularQueue × Option GoError) :=
  if cq.curCap ≠ 0 then
    .ok ({ cq with head := cq.head + 1, curCap := cq.curCap - 1 }, none)
  else .ok (cq, some NewQueueEmptyErr)

/-- `(cq *CircularQueue) Front()`. -/
def Front (cq : CircularQueue) : Except Fault (CircularQueue × Int × Option GoError) :=
  if cq.curCap ≠ 0 then
    match sliceGet cq.data cq.head with
    | .error f => .error f
    | .ok v => .ok (cq, v, none)
  else .ok (cq, 0, some NewQueueEmptyErr)

/-- `(cq *CircularQueue) Rear()`. -/
def Rear (cq : CircularQueue) : Except Fault (CircularQueue × Int × Option GoError) :=
  if cq.curCap ≠ 0 then
    match sliceGet cq.data (cq.head + cq.curCap - 1) with
    | .error f => .error f
    | .ok v => .ok (cq, v, none)
  else .ok (cq, 0, some NewQueueEmptyErr)

/-- `(cq *CircularQueue) IsEmpty()`. -/
def IsEmpty (cq : CircularQueue) : CircularQueue × Bool :=
  (cq, decide (cq.curCap = 0))

/-- `(cq *CircularQueue) IsFull()`. -/
def IsFull (cq : CircularQueue) : CircularQueue × Bool :=
  (cq, decide (cq.curCap = cq.cap))

/-- Perform one call on a queue. -/
def step (cq : CircularQueue) : Op → Except Fault (CircularQueue × Ret)
  | .EnQueue val =>
    match EnQueue cq val with
    | .error f => .error f
    | .ok (cq1, e) => .ok (cq1, .err e)
  | .DeQueue =>
    match DeQueue cq with
    | .error f => .error f
    | .ok (cq1, e) => .ok (cq1, .err e)
  | .Front =>
    match Front cq with
    | .error f => .error f
    | .ok (cq1, v, e) => .ok (cq1, .val v e)
  | .Rear =>
    match Rear cq with
    | .error f => .error f
    | .ok (cq1, v, e) => .ok (cq1, .val v e)
  | .IsEmpty => .ok ((IsEmpty cq).1, .bool (IsEmpty cq).2)
  | .IsFull => .ok ((IsFull cq).1, .bool (IsFull cq).2)

/-- Perform a sequence of calls up to the first panic, collecting what each
call returned. -/
def run (cq : CircularQueue) : List Op → Except Fault (CircularQueue × List Ret)
  | [] => .ok (cq, [])
  | op :: ops =>
    match step cq op with
    | .error f => .error f
    | .ok (cq1, r) =>
      match run cq1 ops with
      | .error f => .error f
      | .ok (cq2, rs) => .ok (cq2, r :: rs)

/-- Build a queue of capacity `c` and perform a sequence of calls on it. -/
def runFresh (c : Int) (ops : List Op) : Except Fault (CircularQueue × List Ret) :=
  match NewCircularQueue c with
  | .error f => .error f
  | .ok cq => run cq ops

/-- A state is reachable for capacity `c` when some sequence of calls on
`NewCircularQueue c` ends in it without a panic on the way. -/
def Reachable (c : Int) (s : CircularQueue) : Prop :=
  ∃ ops rs, runFresh c ops = .ok (s, rs)

/-- The logical contents: the slots `head + i` for `i < curCap`. -/
def contents (cq : CircularQueue) : List Int :=
  (List.range cq.curCap.toNat).map
    (fun (i : Nat) => cq.data.getD (cq.head + (i : Int)).toNat 0)

/-- What holds of the fields as long as no call has panicked. -/
structure Inv (cq : CircularQueue) : Prop where
  len : (cq.data.length : Int) = cq.cap
  cur_nonneg : 0 ≤ cq.curCap
  head_nonneg : 0 ≤ cq.head
  sum_le : cq.head + cq.curCap ≤ cq.cap

/-- The state of the wrapping revision that has the same store, capacity and
element count, and the `head` reduced modulo `cap`. -/
def reduceHead (cq : CircularQueue) : circularQueue :=
  { data := cq.data, cap := cq.cap, curCap := cq.curCap, head := cq.head % cq.cap }

end NoWrap

/-! ## Arithmetic of wrapped indices -/

/-- A value below twice the modulus is reduced by at most one subtraction. -/
theorem emod_wrap (x c : Int) (h0 : 0 ≤ x) (h1 : x < 2 * c) :
    x % c = if x < c then x else x - c := by
  split
  · next h => exact Int.emod_eq_of_lt h0 h
  · next h =>
    have e : x = (x - c) + c := by omega
    conv_lhs => rw [e]
    rw [Int.add_emod_self]
    exact Int.emod_eq_of_lt (by omega) (by omega)

/-- On a non-negative dividend and a positive divisor Go's `%` is the
mathematical remainder and does not panic. -/
theorem goMod_eq (a b : Int) (ha : 0 ≤ a) (hb : 0 < b) : goMod a b = .ok (a % b) := by
  unfold goMod
  rw [if_neg (by omega), Int.tmod_eq_emod ha (by omega)]

/-- A wrapped index is a valid position of the store. -/
theorem emod_bounds (a b : Int) (hb : 0 < b) : 0 ≤ a % b ∧ a % b < b :=
  ⟨Int.emod_nonneg a (by omega), Int.emod_lt_of_pos a hb⟩

/-- Two logical positions below the capacity occupy distinct slots. -/
theorem slot_injective (h c i j : Int) (hh0 : 0 ≤ h) (hhc : h < c)
    (hi : 0 ≤ i) (hij : i < j) (hj : j < c) : (h + i) % c ≠ (h + j) % c := by
  rw [emod_wrap (h + i) c (by omega) (by omega), emod_wrap (h + j) c (by omega) (by omega)]
  split <;> split <;> omega

/-! ## The operations on a state satisfying the invariant -/

/-- An allocation that returns was asked for a length the runtime accepts. -/
theorem makeSlice_ok (n : Int) (d : List Int) (h : makeSlice n = .ok d) :
    0 ≤ n ∧ 8 * n ≤ maxAlloc ∧ d = List.replicate n.toNat 0 := by
  unfold makeSlice at h
  split at h
  · simp at h
  · next hb =>
    simp only [Except.ok.injEq] at h
    exact ⟨by omega, by omega, h.symm⟩

theorem makeSlice_eq (n : Int) (h0 : 0 ≤ n) (hb : 8 * n ≤ maxAlloc) :
    makeSlice n = .ok (List.replicate n.toNat 0) := by
  unfold makeSlice
  rw [if_neg (by omega)]

/-- A queue is only built for a capacity the runtime accepts. -/
theorem NewCircularQueue_fits (c : Int) (q : circularQueue) (h : NewCircularQueue c = .ok q) :
    0 ≤ c ∧ 8 * c ≤ maxAlloc := by
  unfold NewCircularQueue at h
  cases hm : makeSlice c with
  | error f => rw [hm] at h; simp at h
  | ok d => exact ⟨(makeSlice_ok c d hm).1, (makeSlice_ok c d hm).2.1⟩

theorem Reachable_fits (c : Int) (s : circularQueue) (h : Reachable c s) :
    0 ≤ c ∧ 8 * c ≤ maxAlloc := by
  obtain ⟨ops, rs, e⟩ := h
  unfold runFresh at e
  cases hq : NewCircularQueue c with
  | error f => rw [hq] at e; simp at e
  | ok q => exact NewCircularQueue_fits c q hq

theorem Inv_new (c : Int) (hc : 0 ≤ c) (hb : 8 * c ≤ maxAlloc) :
    ∃ q, NewCircularQueue c = .ok q ∧ Inv q ∧ q.cap = c ∧ q.curCap = 0 ∧ q.head = 0 := by
  refine ⟨{ data := List.replicate c.toNat 0, cap := c, curCap := 0, head := 0 }, ?_, ?_, rfl, rfl, rfl⟩
  · unfold NewCircularQueue
    rw [makeSlice_eq c hc hb]
  · constructor <;> simp <;> omega

theorem EnQueue_eq (s : circularQueue) (hs : Inv s) (v : Int) (h : s.curCap ≠ s.cap) :
    EnQueue s v = .ok ({ s with data := s.data.set ((s.head + s.curCap) % s.cap).toNat v,
                                curCap := s.curCap + 1 }, none) := by
  obtain ⟨h1, h2, h3, h4, h5, h6⟩ := hs
  have hc : 0 < s.cap := by omega
  have hb := emod_bounds (s.head + s.curCap) s.cap hc
  unfold EnQueue
  rw [if_pos h, goMod_eq _ _ (by omega) hc]
  simp only [sliceSet]
  rw [if_pos ⟨hb.1, by omega⟩]

theorem EnQueue_full (s : circularQueue) (v : Int) (h : s.curCap = s.cap) :
    EnQueue s v = .ok (s, some newNoFreeCapErr) := by
  unfold EnQueue
  rw [if_neg (by simpa using h)]

theorem DeQueue_eq (s : circularQueue) (hs : Inv s) (h : s.curCap ≠ 0) :
    DeQueue s = .ok ({ s with head := (s.head + 1) % s.cap, curCap := s.curCap - 1 }, none) := by
  obtain ⟨h1, h2, h3, h4, h5, h6⟩ := hs
  have hc : 0 < s.cap := by omega
  unfold DeQueue
  rw [if_pos h, goMod_eq _ _ (by omega) hc]

theorem DeQueue_empty (s : circularQueue) (h : s.curCap = 0) :
    DeQueue s = .ok (s, some newQueueEmptyErr) := by
  unfold DeQueue
  rw [if_neg (by simpa using h)]

theorem Front_eq (s : circularQueue) (hs : Inv s) (h : s.curCap ≠ 0) :
    Front s = .ok (s, s.data.getD s.head.toNat 0, none) := by
  obtain ⟨h1, h2, h3, h4, h5, h6⟩ := hs
  have hc : 0 < s.cap := by omega
  unfold Front
  rw [if_pos h]
  simp only [sliceGet]
  rw [if_pos ⟨h4, by have := h5 hc; omega⟩]

theorem Front_empty (s : circularQueue) (h : s.curCap = 0) :
    Front s = .ok (s, 0, some newQueueEmptyErr) := by
  unfold Front
  rw [if_neg (by simpa using h)]

theorem Rear_eq (s : circularQueue) (hs : Inv s) (h : s.curCap ≠ 0) :
    Rear s = .ok (s, s.data.getD ((s.head + s.curCap - 1) % s.cap).toNat 0, none) := by
  obtain ⟨h1, h2, h3, h4, h5, h6⟩ := hs
  have hc : 0 < s.cap := by omega
  have hb := emod_bounds (s.head + s.curCap - 1) s.cap hc
  unfold Rear
  rw [if_pos h, goMod_eq _ _ (by omega) hc]
  simp only [sliceGet]
  rw [if_pos ⟨hb.1, by omega⟩]

theorem Rear_empty (s : circularQueue) (h : s.curCap = 0) :
    Rear s = .ok (s, 0, some newQueueEmptyErr) := by
  unfold Rear
  rw [if_neg (by simpa using h)]

/-! ## The invariant is preserved -/

theorem Inv_enq (s : circularQueue) (hs : Inv s) (v : Int) (h : s.curCap ≠ s.cap) :
    Inv { s with data := s.data.set ((s.head + s.curCap) % s.cap).toNat v,
                 curCap := s.curCap + 1 } := by
  obtain ⟨h1, h2, h3, h4, h5, h6⟩ := hs
  constructor <;> simp <;> omega

theorem Inv_deq (s : circularQueue) (hs : Inv s) (h : s.curCap ≠ 0) :
    Inv { s with head := (s.head + 1) % s.cap, curCap := s.curCap - 1 } := by
  obtain ⟨h1, h2, h3, h4, h5, h6⟩ := hs
  have hc : 0 < s.cap := by omega
  have hb := emod_bounds (s.head + 1) s.cap hc
  constructor <;> simp <;> omega

/-- One call on a state satisfying the invariant does not panic, keeps the
invariant and keeps the capacity. -/
theorem step_Inv (s : circularQueue) (hs : Inv s) (op : Op) :
    ∃ s1 r, step s op = .ok (s1, r) ∧ Inv s1 ∧ s1.cap = s.cap := by
  cases op with
  | EnQueue v =>
    by_cases h : s.curCap = s.cap
    · exact ⟨s, _, by simp only [step, EnQueue_full s v h]; rfl, hs, rfl⟩
    · exact ⟨_, _, by simp only [step, EnQueue_eq s hs v h]; rfl, Inv_enq s hs v h, rfl⟩
  | DeQueue =>
    by_cases h : s.curCap = 0
    · exact ⟨s, _, by simp only [step, DeQueue_empty s h]; rfl, hs, rfl⟩
    · exact ⟨_, _, by simp only [step, DeQueue_eq s hs h]; rfl, Inv_deq s hs h, rfl⟩
  | Front =>
    by_cases h : s.curCap = 0
    · exact ⟨s, _, by simp only [step, Front_empty s h]; rfl, hs, rfl⟩
    · exact ⟨s, _, by simp only [step, Front_eq s hs h]; rfl, hs, rfl⟩
  | Rear =>
    by_cases h : s.curCap = 0
    · exact ⟨s, _, by simp only [step, Rear_empty s h]; rfl, hs, rfl⟩
    · exact ⟨s, _, by simp only [step, Rear_eq s hs h]; rfl, hs, rfl⟩
  | IsEmpty => exact ⟨s, _, rfl, hs, rfl⟩
  | IsFull => exact ⟨s, _, rfl, hs, rfl⟩

/-- A sequence of calls on a state satisfying the invariant does not panic,
keeps the invariant and keeps the capacity. -/
theorem run_Inv (ops : List Op) : ∀ (s : circularQueue), Inv s →
    ∃ s1 rs, run s ops = .ok (s1, rs) ∧ Inv s1 ∧ s1.cap = s.cap := by
  induction ops with
  | nil => intro s hs; exact ⟨s, [], rfl, hs, rfl⟩
  | cons op ops ih =>
    intro s hs
    obtain ⟨s1, r, e1, hs1, c1⟩ := step_Inv s hs op
    obtain ⟨s2, rs, e2, hs2, c2⟩ := ih s1 hs1
    exact ⟨s2, r :: rs, by simp only [run, e1, e2], hs2, by rw [c2, c1]⟩

/-- Every reachable state satisfies the invariant and has the capacity the
queue was built with. -/
theorem Reachable_Inv (c : Int) (hc : 0 ≤ c) (s : circularQueue) (h : Reachable c s) :
    Inv s ∧ s.cap = c := by
  have hb := (Reachable_fits c s h).2
  obtain ⟨ops, rs, e⟩ := h
  obtain ⟨q, eq, hq, qc, -, -⟩ := Inv_new c hc hb
  obtain ⟨s1, rs1, e1, hs1, c1⟩ := run_Inv ops q hq
  simp only [runFresh, eq, e1, Except.ok.injEq, Prod.mk.injEq] at e
  obtain ⟨rfl, -⟩ := e
  exact ⟨hs1, by rw [c1, qc]⟩

/-! ## The logical contents under each operation -/

theorem contents_length (s : circularQueue) : (contents s).length = s.curCap.toNat := by
  simp [contents]

theorem contents_enq (s : circularQueue) (hs : Inv s) (v : Int) (h : s.curCap ≠ s.cap) :
    contents { s with data := s.data.set ((s.head + s.curCap) % s.cap).toNat v,
                      curCap := s.curCap + 1 } = contents s ++ [v] := by
  obtain ⟨h1, h2, h3, h4, h5, h6⟩ := hs
  have hc : 0 < s.cap := by omega
  have hh := h5 hc
  have hb := emod_bounds (s.head + s.curCap) s.cap hc
  have e : (s.curCap + 1).toNat = s.curCap.toNat + 1 := by omega
  simp only [contents, e, List.range_succ, List.map_append, List.map_cons, List.map_nil]
  congr 1
  · apply List.map_congr_left
    intro i hi
    rw [List.mem_range] at hi
    have hb2 := emod_bounds (s.head + (i : Int)) s.cap hc
    have hne := slot_injective s.head s.cap i s.curCap h4 hh (by omega) (by omega) (by omega)
    rw [List.getD_eq_getElem?_getD, List.getD_eq_getElem?_getD,
      List.getElem?_set_ne (by omega)]
  · have e2 : ((s.curCap.toNat : Nat) : Int) = s.curCap := by omega
    rw [e2, List.getD_eq_getElem?_getD, List.getElem?_set_self (by omega)]
    rfl

theorem contents_deq (s : circularQueue) (hs : Inv s) (h : s.curCap ≠ 0) :
    contents { s with head := (s.head + 1) % s.cap, curCap := s.curCap - 1 }
      = (contents s).tail := by
  obtain ⟨h1, h2, h3, h4, h5, h6⟩ := hs
  obtain ⟨n, hn⟩ : ∃ n : Nat, s.curCap.toNat = n + 1 := ⟨s.curCap.toNat - 1, by omega⟩
  have e : (s.curCap - 1).toNat = n := by omega
  simp only [contents, e, hn, List.range_succ_eq_map, List.map_cons, List.tail_cons,
    List.map_map]
  apply List.map_congr_left
  intro i _
  simp only [Function.comp, Int.emod_add_emod, Nat.succ_eq_add_one, Nat.cast_add,
    Nat.cast_one]
  congr 3
  omega

theorem contents_head (s : circularQueue) (hs : Inv s) (h : s.curCap ≠ 0) :
    (contents s).head? = some (s.data.getD s.head.toNat 0) := by
  obtain ⟨h1, h2, h3, h4, h5, h6⟩ := hs
  have hc : 0 < s.cap := by omega
  obtain ⟨n, hn⟩ : ∃ n : Nat, s.curCap.toNat = n + 1 := ⟨s.curCap.toNat - 1, by omega⟩
  simp only [contents, hn, List.range_succ_eq_map, List.map_cons, List.head?_cons]
  rw [show s.head + ((0 : Nat) : Int) = s.head by simp,
    Int.emod_eq_of_lt h4 (h5 hc)]

theorem contents_last (s : circularQueue) (hs : Inv s) (h : s.curCap ≠ 0) :
    (contents s).getLast? = some (s.data.getD ((s.head + s.curCap - 1) % s.cap).toNat 0) := by
  obtain ⟨h1, h2, h3, h4, h5, h6⟩ := hs
  obtain ⟨n, hn⟩ : ∃ n : Nat, s.curCap.toNat = n + 1 := ⟨s.curCap.toNat - 1, by omega⟩
  simp only [contents, hn, List.range_succ, List.map_append, List.map_cons, List.map_nil,
    List.getLast?_concat]
  have e : s.head + (n : Int) = s.head + s.curCap - 1 := by omega
  rw [e]

/-! ## Sequences of calls -/

theorem run_append (a b : List Op) : ∀ (s s1 s2 : circularQueue) (r1 r2 : List Ret),
    run s a = .ok (s1, r1) → run s1 b = .ok (s2, r2) → run s (a ++ b) = .ok (s2, r1 ++ r2) := by
  induction a with
  | nil =>
    intro s s1 s2 r1 r2 e1 e2
    simp only [run, Except.ok.injEq, Prod.mk.injEq] at e1
    obtain ⟨rfl, rfl⟩ := e1
    simpa using e2
  | cons op a ih =>
    intro s s1 s2 r1 r2 e1 e2
    simp only [run] at e1
    simp only [List.cons_append, run]
    cases hst : step s op with
    | error f => rw [hst] at e1; simp at e1
    | ok p =>
      obtain ⟨t, r⟩ := p
      rw [hst] at e1
      simp only at e1 ⊢
      cases hrun : run t a with
      | error f => rw [hrun] at e1; simp at e1
      | ok q =>
        obtain ⟨t1, rs⟩ := q
        rw [hrun] at e1
        simp only [Except.ok.injEq, Prod.mk.injEq] at e1
        obtain ⟨rfl, rfl⟩ := e1
        have e3 := ih t t1 s2 rs r2 hrun e2
        simp only [List.append_eq] at e3 ⊢
        rw [e3]
        rfl

/-- Enqueueing values that fit: every call returns `nil` and the values are
appended to the contents in order. -/
theorem run_enqueues (vs : List Int) : ∀ (s : circularQueue), Inv s →
    s.curCap + (vs.length : Int) ≤ s.cap →
    ∃ s1, run s (vs.map Op.EnQueue) = .ok (s1, List.replicate vs.length (Ret.err none)) ∧
      Inv s1 ∧ s1.cap = s.cap ∧ s1.curCap = s.curCap + (vs.length : Int) ∧
      contents s1 = contents s ++ vs := by
  induction vs with
  | nil => intro s hs _; exact ⟨s, rfl, hs, rfl, by simp, by simp⟩
  | cons v vs ih =>
    intro s hs hfit
    simp only [List.length_cons, Nat.cast_add, Nat.cast_one] at hfit
    have h : s.curCap ≠ s.cap := by omega
    obtain ⟨s1, e1, hs1, c1, k1, l1⟩ := ih _ (Inv_enq s hs v h) (by simp only; omega)
    refine ⟨s1, ?_, hs1, c1, ?_, ?_⟩
    · simp only [List.map_cons, run, step, EnQueue_eq s hs v h, e1, List.length_cons,
        List.replicate_succ]
    · rw [k1]; simp only [List.length_cons, Nat.cast_add, Nat.cast_one]; omega
    · rw [l1, contents_enq s hs v h]; simp

/-- Draining a queue with `Front(); DeQueue()` pairs: every call succeeds, the
`Front` calls return the contents in order, and the queue ends up empty. -/
theorem run_drain (l : List Int) : ∀ (s : circularQueue), Inv s → contents s = l →
    ∃ s1, run s (frontDeQueuePairs l.length) = .ok (s1, frontDeQueueRets l) ∧
      Inv s1 ∧ s1.curCap = 0 := by
  induction l with
  | nil =>
    intro s hs hl
    have := contents_length s
    rw [hl] at this
    have h2 := hs.cur_nonneg
    exact ⟨s, rfl, hs, by simp at this; omega⟩
  | cons v l ih =>
    intro s hs hl
    have hlen := contents_length s
    rw [hl] at hlen
    simp only [List.length_cons] at hlen
    have h : s.curCap ≠ 0 := by omega
    have hf := contents_head s hs h
    rw [hl] at hf
    simp only [List.head?_cons, Option.some.injEq] at hf
    have ht := contents_deq s hs h
    rw [hl, List.tail_cons] at ht
    obtain ⟨s1, e1, hs1, k1⟩ := ih _ (Inv_deq s hs h) ht
    refine ⟨s1, ?_, hs1, k1⟩
    simp only [List.length_cons, frontDeQueuePairs, frontDeQueueRets, run, step,
      Front_eq s hs h, DeQueue_eq s hs h, e1, hf]

theorem run_cons_inv (s s2 : circularQueue) (op : Op) (ops : List Op) (rs : List Ret)
    (e : run s (op :: ops) = .ok (s2, rs)) :
    ∃ s1 r rs1, step s op = .ok (s1, r) ∧ run s1 ops = .ok (s2, rs1) ∧ rs = r :: rs1 := by
  simp only [run] at e
  cases hst : step s op with
  | error f => rw [hst] at e; simp at e
  | ok p =>
    obtain ⟨t, r⟩ := p
    rw [hst] at e
    simp only at e
    cases hrun : run t ops with
    | error f => rw [hrun] at e; simp at e
    | ok q =>
      obtain ⟨t1, rs1⟩ := q
      rw [hrun] at e
      simp only [Except.ok.injEq, Prod.mk.injEq] at e
      obtain ⟨rfl, rfl⟩ := e
      exact ⟨t, r, rs1, rfl, hrun, rfl⟩

theorem getLast?_tail (l : List Int) (h : l.tail ≠ []) : l.tail.getLast? = l.getLast? := by
  cases l with
  | nil => simp at h
  | cons a l =>
    cases l with
    | nil => simp at h
    | cons b l => simp [List.getLast?_cons_cons]

/-- One call keeps the last element of the contents equal to the value of the
most recent successful `EnQueue`. -/
theorem step_last (s s1 : circularQueue) (hs : Inv s) (op : Op) (r : Ret) (acc : Option Int)
    (hacc : s.curCap ≠ 0 → (contents s).getLast? = acc)
    (e : step s op = .ok (s1, r)) (h1 : s1.curCap ≠ 0) :
    (contents s1).getLast? = (match enqueuedBy op r with
      | some v => some v
      | none => acc) := by
  cases op with
  | EnQueue v =>
    by_cases h : s.curCap = s.cap
    · simp only [step, EnQueue_full s v h, Except.ok.injEq, Prod.mk.injEq] at e
      obtain ⟨rfl, rfl⟩ := e
      exact hacc h1
    · simp only [step, EnQueue_eq s hs v h, Except.ok.injEq, Prod.mk.injEq] at e
      obtain ⟨rfl, rfl⟩ := e
      rw [contents_enq s hs v h]
      simp [enqueuedBy]
  | DeQueue =>
    by_cases h : s.curCap = 0
    · simp only [step, DeQueue_empty s h, Except.ok.injEq, Prod.mk.injEq] at e
      obtain ⟨rfl, rfl⟩ := e
      exact hacc h1
    · simp only [step, DeQueue_eq s hs h, Except.ok.injEq, Prod.mk.injEq] at e
      obtain ⟨rfl, rfl⟩ := e
      rw [contents_deq s hs h, getLast?_tail]
      · exact hacc h
      · have hl := contents_length s
        have h2 := hs.cur_nonneg
        simp only at h1
        intro hnil
        have : (contents s).tail.length = 0 := by rw [hnil]; rfl
        rw [List.length_tail, hl] at this
        omega
  | Front =>
    by_cases h : s.curCap = 0
    · simp only [step, Front_empty s h, Except.ok.injEq, Prod.mk.injEq] at e
      obtain ⟨rfl, rfl⟩ := e
      exact hacc h1
    · simp only [step, Front_eq s hs h, Except.ok.injEq, Prod.mk.injEq] at e
      obtain ⟨rfl, rfl⟩ := e
      exact hacc h1
  | Rear =>
    by_cases h : s.curCap = 0
    · simp only [step, Rear_empty s h, Except.ok.injEq, Prod.mk.injEq] at e
      obtain ⟨rfl, rfl⟩ := e
      exact hacc h1
    · simp only [step, Rear_eq s hs h, Except.ok.injEq, Prod.mk.injEq] at e
      obtain ⟨rfl, rfl⟩ := e
      exact hacc h1
  | IsEmpty =>
    simp only [step, IsEmpty, Except.ok.injEq, Prod.mk.injEq] at e
    obtain ⟨rfl, rfl⟩ := e
    exact hacc h1
  | IsFull =>
    simp only [step, IsFull, Except.ok.injEq, Prod.mk.injEq] at e
    obtain ⟨rfl, rfl⟩ := e
    exact hacc h1

/-- After any sequence of calls on a non-empty queue the last element of the
contents is the value of the most recent successful `EnQueue`. -/
theorem run_last (ops : List Op) : ∀ (s s2 : circularQueue) (rs : List Ret) (acc : Option Int),
    Inv s → (s.curCap ≠ 0 → (contents s).getLast? = acc) → run s ops = .ok (s2, rs) →
    s2.curCap ≠ 0 → (contents s2).getLast? = lastEnQueued acc ops rs := by
  induction ops with
  | nil =>
    intro s s2 rs acc _ hacc e h2
    simp only [run, Except.ok.injEq, Prod.mk.injEq] at e
    obtain ⟨rfl, rfl⟩ := e
    simpa [lastEnQueued] using hacc h2
  | cons op ops ih =>
    intro s s2 rs acc hs hacc e h2
    obtain ⟨s1, r, rs1, e1, e2, rfl⟩ := run_cons_inv s s2 op ops rs e
    obtain ⟨t, r', e1', ht, -⟩ := step_Inv s hs op
    rw [e1] at e1'
    simp only [Except.ok.injEq, Prod.mk.injEq] at e1'
    obtain ⟨rfl, rfl⟩ := e1'
    have hstep := step_last s s1 hs op r acc hacc e1
    simp only [lastEnQueued]
    cases hen : enqueuedBy op r with
    | none =>
      rw [hen] at hstep
      exact ih s1 s2 rs1 acc ht hstep e2 h2
    | some v =>
      rw [hen] at hstep
      exact ih s1 s2 rs1 (some v) ht hstep e2 h2

/-! ## When an operation reports an error -/

theorem EnQueue_err_iff (t : circularQueue) (v : Int) :
    (∃ t1 e, EnQueue t v = .ok (t1, some e)) ↔ t.curCap = t.cap := by
  constructor
  · rintro ⟨t1, e, he⟩
    by_contra h
    unfold EnQueue at he
    rw [if_pos h] at he
    cases h1 : goMod (t.head + t.curCap) t.cap with
    | error f => rw [h1] at he; simp at he
    | ok i =>
      rw [h1] at he
      simp only at he
      cases h2 : sliceSet t.data i v with
      | error f => rw [h2] at he; simp at he
      | ok d => rw [h2] at he; simp at he
  · intro h
    exact ⟨t, _, EnQueue_full t v h⟩

theorem DeQueue_err_iff (t : circularQueue) :
    (∃ t1 e, DeQueue t = .ok (t1, some e)) ↔ t.curCap = 0 := by
  constructor
  · rintro ⟨t1, e, he⟩
    by_contra h
    unfold DeQueue at he
    rw [if_pos h] at he
    cases h1 : goMod (t.head + 1) t.cap with
    | error f => rw [h1] at he; simp at he
    | ok i => rw [h1] at he; simp at he
  · intro h
    exact ⟨t, _, DeQueue_empty t h⟩

theorem Front_err_iff (t : circularQueue) :
    (∃ t1 x e, Front t = .ok (t1, x, some e)) ↔ t.curCap = 0 := by
  constructor
  · rintro ⟨t1, x, e, he⟩
    by_contra h
    unfold Front at he
    rw [if_pos h] at he
    cases h1 : sliceGet t.data t.head with
    | error f => rw [h1] at he; simp at he
    | ok i => rw [h1] at he; simp at he
  · intro h
    exact ⟨t, _, _, Front_empty t h⟩

theorem Rear_err_iff (t : circularQueue) :
    (∃ t1 x e, Rear t = .ok (t1, x, some e)) ↔ t.curCap = 0 := by
  constructor
  · rintro ⟨t1, x, e, he⟩
    by_contra h
    unfold Rear at he
    rw [if_pos h] at he
    cases h1 : goMod (t.head + t.curCap - 1) t.cap with
    | error f => rw [h1] at he; simp at he
    | ok i =>
      rw [h1] at he
      simp only at he
      cases h2 : sliceGet t.data i with
      | error f => rw [h2] at he; simp at he
      | ok d => rw [h2] at he; simp at he
  · intro h
    exact ⟨t, _, _, Rear_empty t h⟩

/-! ## Reading the store after a write -/

theorem sliceGet_set_self (data : List Int) (k v : Int) (h0 : 0 ≤ k)
    (h1 : k < (data.length : Int)) : sliceGet (data.set k.toNat v) k = .ok v := by
  unfold sliceGet
  rw [List.length_set, if_pos ⟨h0, h1⟩, List.getD_eq_getElem?_getD,
    List.getElem?_set_self (by omega)]
  rfl

theorem sliceGet_set_ne (data : List Int) (k j v : Int) (h0 : 0 ≤ k) (hne : j ≠ k) :
    sliceGet (data.set k.toNat v) j = sliceGet data j := by
  unfold sliceGet
  rw [List.length_set]
  by_cases hj : 0 ≤ j ∧ j < (data.length : Int)
  · rw [if_pos hj, if_pos hj, List.getD_eq_getElem?_getD, List.getD_eq_getElem?_getD,
      List.getElem?_set_ne (by omega)]
  · rw [if_neg hj, if_neg hj]

theorem sliceGet_eq (data : List Int) (k : Int) (h0 : 0 ≤ k) (h1 : k < (data.length : Int)) :
    sliceGet data k = .ok (data.getD k.toNat 0) := by
  unfold sliceGet
  rw [if_pos ⟨h0, h1⟩]

/-! ## The queue as a bounded FIFO list -/

/-- C1: in every state reachable from `NewCircularQueue c` (`c ≥ 0`) the logical
contents have length `curCap ≤ c`; `EnQueue v` succeeds whenever the queue is
not full and every successful `EnQueue v` appends `v` to the contents;
`DeQueue` succeeds whenever the queue is not empty and every successful
`DeQueue` leaves the tail of the contents; on a non-empty queue `Front` returns
the first and `Rear` the last element of the contents. -/
theorem contents_simulates_fifo (c : Int) (hc : 0 ≤ c) (s : circularQueue)
    (hr : Reachable c s) :
    ((contents s).length : Int) = s.curCap ∧ s.curCap ≤ c ∧
    (∀ v, (s.curCap ≠ s.cap → ∃ s1, EnQueue s v = .ok (s1, none)) ∧
      ∀ s1, EnQueue s v = .ok (s1, none) → contents s1 = contents s ++ [v]) ∧
    ((s.curCap ≠ 0 → ∃ s1, DeQueue s = .ok (s1, none)) ∧
      ∀ s1, DeQueue s = .ok (s1, none) → contents s1 = (contents s).tail) ∧
    (s.curCap ≠ 0 → ∃ x, (contents s).head? = some x ∧ Front s = .ok (s, x, none)) ∧
    (s.curCap ≠ 0 → ∃ x, (contents s).getLast? = some x ∧ Rear s = .ok (s, x, none)) := by
  obtain ⟨hs, hcap⟩ := Reachable_Inv c hc s hr
  have h2 := hs.cur_nonneg
  have h3 := hs.cur_le
  refine ⟨?_, by omega, ?_, ?_, ?_, ?_⟩
  · rw [contents_length]; omega
  · intro v
    refine ⟨fun h => ⟨_, EnQueue_eq s hs v h⟩, ?_⟩
    intro s1 e
    by_cases h : s.curCap = s.cap
    · rw [EnQueue_full s v h] at e
      simp at e
    · rw [EnQueue_eq s hs v h] at e
      simp only [Except.ok.injEq, Prod.mk.injEq, and_true] at e
      rw [← e]
      exact contents_enq s hs v h
  · refine ⟨fun h => ⟨_, DeQueue_eq s hs h⟩, ?_⟩
    intro s1 e
    by_cases h : s.curCap = 0
    · rw [DeQueue_empty s h] at e
      simp at e
    · rw [DeQueue_eq s hs h] at e
      simp only [Except.ok.injEq, Prod.mk.injEq, and_true] at e
      rw [← e]
      exact contents_deq s hs h
  · intro h
    exact ⟨_, contents_head s hs h, Front_eq s hs h⟩
  · intro h
    exact ⟨_, contents_last s hs h, Rear_eq s hs h⟩

/-- C1 at the state reached by `EnQueue(1); EnQueue(2); DeQueue(); EnQueue(3);
EnQueue(4)` on a queue of capacity 3, where the contents wrap around the end
of the store. -/
theorem contents_simulates_fifo_witness :
    Reachable 3 { data := [4, 2, 3], cap := 3, curCap := 3, head := 1 } ∧
    contents { data := [4, 2, 3], cap := 3, curCap := 3, head := 1 } = [2, 3, 4] ∧
    (((contents { data := [4, 2, 3], cap := 3, curCap := 3, head := 1 }).length : Int) = 3 ∧
      (3 : Int) ≤ 3) :=
  ⟨⟨[.EnQueue 1, .EnQueue 2, .DeQueue, .EnQueue 3, .EnQueue 4], _, rfl⟩, rfl,
    (contents_simulates_fifo 3 (by decide) _
      ⟨[.EnQueue 1, .EnQueue 2, .DeQueue, .EnQueue 3, .EnQueue 4], _, rfl⟩).1,
    (contents_simulates_fifo 3 (by decide) _
      ⟨[.EnQueue 1, .EnQueue 2, .DeQueue, .EnQueue 3, .EnQueue 4], _, rfl⟩).2.1⟩

/-- C2: every state reachable from `NewCircularQueue c` (`c ≥ 0`) has
`0 ≤ curCap ≤ cap`, has `0 ≤ head < cap` when `cap > 0`, and has `head = 0`
when `cap = 0`. -/
theorem reachable_bounds (c : Int) (hc : 0 ≤ c) (s : circularQueue) (hr : Reachable c s) :
    0 ≤ s.curCap ∧ s.curCap ≤ s.cap ∧ (0 < s.cap → 0 ≤ s.head ∧ s.head < s.cap) ∧
    (s.cap = 0 → s.head = 0) := by
  obtain ⟨hs, -⟩ := Reachable_Inv c hc s hr
  exact ⟨hs.cur_nonneg, hs.cur_le, fun h => ⟨hs.head_nonneg, hs.head_lt h⟩, hs.head_zero⟩

/-- C2 at the state reached by filling a queue of capacity 2 and removing both
elements, where `head` has wrapped back to 0. -/
theorem reachable_bounds_witness :
    Reachable 2 { data := [7, 8], cap := 2, curCap := 0, head := 0 } ∧
    ((0 : Int) ≤ 0 ∧ (0 : Int) ≤ 2 ∧ ((0 : Int) < 2 → (0 : Int) ≤ 0 ∧ (0 : Int) < 2) ∧
      ((2 : Int) = 0 → (0 : Int) = 0)) :=
  ⟨⟨[.EnQueue 7, .EnQueue 8, .DeQueue, .DeQueue], _, rfl⟩,
    reachable_bounds 2 (by decide) { data := [7, 8], cap := 2, curCap := 0, head := 0 }
      ⟨[.EnQueue 7, .EnQueue 8, .DeQueue, .DeQueue], _, rfl⟩⟩

/-- C3: on `NewCircularQueue(3)` the calls `EnQueue(1)`, `EnQueue(2)`,
`EnQueue(3)` return `nil` and `IsFull()` is then true; `DeQueue()` and
`EnQueue(4)` return `nil`; `Front()` then returns `(2, nil)` and `Rear()`
returns `(4, nil)`. -/
theorem wraparound_capacity_three :
    runFresh 3 [.EnQueue 1, .EnQueue 2, .EnQueue 3, .IsFull, .DeQueue, .EnQueue 4,
        .Front, .Rear]
      = .ok ({ data := [4, 2, 3], cap := 3, curCap := 3, head := 1 },
          [.err none, .err none, .err none, .bool true, .err none, .err none,
            .val 2 none, .val 4 none]) := by
  rfl

/-- C4: for values `vs` with `length vs ≤ c`, on the fresh queue `q` that
`NewCircularQueue c` has built, the calls `EnQueue v` for `v` in `vs` all
return `nil`; then `length vs` pairs `Front(); DeQueue()` all succeed, the
`Front` calls return the values of `vs` in order, and `IsEmpty()` is true at
the end. -/
theorem fifo_order (c : Int) (vs : List Int) (h : (vs.length : Int) ≤ c)
    (q0 : circularQueue) (hq0 : NewCircularQueue c = .ok q0) :
    ∃ s, runFresh c (vs.map Op.EnQueue ++ frontDeQueuePairs vs.length)
        = .ok (s, List.replicate vs.length (Ret.err none) ++ frontDeQueueRets vs) ∧
      (IsEmpty s).2 = true := by
  obtain ⟨q, eq, hq, qc, qk, -⟩ := Inv_new c (by omega) (NewCircularQueue_fits c q0 hq0).2
  obtain ⟨s1, e1, hs1, -, -, l1⟩ := run_enqueues vs q hq (by rw [qk, qc]; omega)
  have hq0 : contents q = [] := by simp [contents, qk]
  rw [hq0, List.nil_append] at l1
  obtain ⟨s2, e2, -, k2⟩ := run_drain vs s1 hs1 l1
  refine ⟨s2, ?_, by simp [IsEmpty, k2]⟩
  simp only [runFresh, eq]
  exact run_append _ _ q s1 s2 _ _ e1 e2

/-- C4 for the values 5, 6, 7 on a queue of capacity 4. -/
theorem fifo_order_witness :
    NewCircularQueue 4 = .ok { data := [0, 0, 0, 0], cap := 4, curCap := 0, head := 0 } ∧
    ∃ s, runFresh 4 [.EnQueue 5, .EnQueue 6, .EnQueue 7,
          .Front, .DeQueue, .Front, .DeQueue, .Front, .DeQueue]
        = .ok (s, [.err none, .err none, .err none,
            .val 5 none, .err none, .val 6 none, .err none, .val 7 none, .err none]) ∧
      (IsEmpty s).2 = true :=
  ⟨rfl, fifo_order 4 [5, 6, 7] (by decide)
    { data := [0, 0, 0, 0], cap := 4, curCap := 0, head := 0 } rfl⟩

/-! ## Error reporting and frame conditions -/

/-- C5: `EnQueue` returns an error exactly when `curCap = cap`; it then returns
the `NoFreeCapErr` whose message is "Queue is full!" and leaves the queue as it
was. In a reachable state with `curCap ≠ cap` it returns `nil`. On a fresh queue
of capacity `c` the first `c` calls return `nil` and one more call returns the
error and leaves the queue as it was. -/
theorem EnQueue_fails_iff_full (c : Int) (hc : 0 ≤ c) (s : circularQueue)
    (hr : Reachable c s) (v : Int) :
    (∀ t : circularQueue, (∃ t1 e, EnQueue t v = .ok (t1, some e)) ↔ t.curCap = t.cap) ∧
    (∀ t : circularQueue, t.curCap = t.cap →
      EnQueue t v = .ok (t, some (GoError.NoFreeCapErr "Queue is full!"))) ∧
    (GoError.NoFreeCapErr "Queue is full!").Error = "Queue is full!" ∧
    (s.curCap ≠ s.cap → ∃ s1, EnQueue s v = .ok (s1, none)) ∧
    (∀ vs : List Int, (vs.length : Int) = c →
      ∃ q, runFresh c (vs.map Op.EnQueue) = .ok (q, List.replicate vs.length (Ret.err none)) ∧
        EnQueue q v = .ok (q, some (GoError.NoFreeCapErr "Queue is full!"))) := by
  obtain ⟨hs, -⟩ := Reachable_Inv c hc s hr
  refine ⟨fun t => EnQueue_err_iff t v, fun t h => EnQueue_full t v h, rfl,
    fun h => ⟨_, EnQueue_eq s hs v h⟩, ?_⟩
  intro vs hvs
  obtain ⟨q, eq, hq, qc, qk, -⟩ := Inv_new c hc (Reachable_fits c s hr).2
  obtain ⟨s1, e1, -, c1, k1, -⟩ := run_enqueues vs q hq (by rw [qk, qc]; omega)
  refine ⟨s1, by simp only [runFresh, eq, e1], EnQueue_full s1 v ?_⟩
  rw [k1, c1, qk, qc]
  omega

/-- C5 at the full queue reached by two `EnQueue` calls on a queue of capacity 2. -/
theorem EnQueue_fails_iff_full_witness :
    Reachable 2 { data := [7, 8], cap := 2, curCap := 2, head := 0 } ∧
    EnQueue { data := [7, 8], cap := 2, curCap := 2, head := 0 } 9
      = .ok ({ data := [7, 8], cap := 2, curCap := 2, head := 0 },
          some (GoError.NoFreeCapErr "Queue is full!")) :=
  ⟨⟨[.EnQueue 7, .EnQueue 8], _, rfl⟩,
    (EnQueue_fails_iff_full 2 (by decide) { data := [7, 8], cap := 2, curCap := 2, head := 0 }
      ⟨[.EnQueue 7, .EnQueue 8], _, rfl⟩ 9).2.1 _ rfl⟩

/-- C6: `DeQueue` returns an error exactly when `curCap = 0`; it then returns
the `QueueEmptyErr` whose message is "Queue is empty!" and leaves the queue as
it was, in particular on a freshly built queue. In a reachable state with
`curCap ≠ 0` it returns `nil`. -/
theorem DeQueue_fails_iff_empty (c : Int) (hc : 0 ≤ c) (s : circularQueue)
    (hr : Reachable c s) :
    (∀ t : circularQueue, (∃ t1 e, DeQueue t = .ok (t1, some e)) ↔ t.curCap = 0) ∧
    (∀ t : circularQueue, t.curCap = 0 →
      DeQueue t = .ok (t, some (GoError.QueueEmptyErr "Queue is empty!"))) ∧
    (GoError.QueueEmptyErr "Queue is empty!").Error = "Queue is empty!" ∧
    (s.curCap ≠ 0 → ∃ s1, DeQueue s = .ok (s1, none)) ∧
    (∃ q, NewCircularQueue c = .ok q ∧
      DeQueue q = .ok (q, some (GoError.QueueEmptyErr "Queue is empty!"))) := by
  obtain ⟨hs, -⟩ := Reachable_Inv c hc s hr
  obtain ⟨q, eq, -, -, qk, -⟩ := Inv_new c hc (Reachable_fits c s hr).2
  exact ⟨DeQueue_err_iff, DeQueue_empty, rfl, fun h => ⟨_, DeQueue_eq s hs h⟩,
    q, eq, DeQueue_empty q qk⟩

/-- C6 at the queue of capacity 2 holding one element after a wrap of `head`. -/
theorem DeQueue_fails_iff_empty_witness :
    Reachable 2 { data := [9, 8], cap := 2, curCap := 1, head := 0 } ∧
    ∃ s1, DeQueue { data := [9, 8], cap := 2, curCap := 1, head := 0 } = .ok (s1, none) :=
  ⟨⟨[.EnQueue 7, .EnQueue 8, .DeQueue, .DeQueue, .EnQueue 9], _, rfl⟩,
    (DeQueue_fails_iff_empty 2 (by decide) { data := [9, 8], cap := 2, curCap := 1, head := 0 }
      ⟨[.EnQueue 7, .EnQueue 8, .DeQueue, .DeQueue, .EnQueue 9], _, rfl⟩).2.2.2.1 (by decide)⟩

/-- C7: on a state satisfying the invariant with `curCap < cap`, `EnQueue v`
returns `nil`, the slot `(head + curCap) mod cap` then holds `v`, `curCap` has
grown by one, `head`, `cap` and the length of the store are as before, every
other slot reads as before, and the slot of every live element
(`(head + i) mod cap` for `0 ≤ i < curCap`) is another slot and reads as
before. -/
theorem EnQueue_frame (s : circularQueue) (hs : Inv s) (v : Int) (h : s.curCap < s.cap) :
    ∃ s1, EnQueue s v = .ok (s1, none) ∧
      sliceGet s1.data ((s.head + s.curCap) % s.cap) = .ok v ∧
      s1.curCap = s.curCap + 1 ∧ s1.head = s.head ∧ s1.cap = s.cap ∧
      s1.data.length = s.data.length ∧
      (∀ j : Int, j ≠ (s.head + s.curCap) % s.cap → sliceGet s1.data j = sliceGet s.data j) ∧
      (∀ i : Int, 0 ≤ i → i < s.curCap →
        (s.head + i) % s.cap ≠ (s.head + s.curCap) % s.cap ∧
        sliceGet s1.data ((s.head + i) % s.cap) = sliceGet s.data ((s.head + i) % s.cap)) := by
  have hne : s.curCap ≠ s.cap := by omega
  have h1 := hs.len
  have h2 := hs.cur_nonneg
  have h4 := hs.head_nonneg
  have hc : 0 < s.cap := by omega
  have hh := hs.head_lt hc
  have hb := emod_bounds (s.head + s.curCap) s.cap hc
  refine ⟨_, EnQueue_eq s hs v hne, ?_, rfl, rfl, rfl, by simp, ?_, ?_⟩
  · exact sliceGet_set_self s.data _ v hb.1 (by omega)
  · intro j hj
    exact sliceGet_set_ne s.data _ j v hb.1 hj
  · intro i hi0 hi
    have hd := slot_injective s.head s.cap i s.curCap h4 hh hi0 hi h
    exact ⟨hd, sliceGet_set_ne s.data _ _ v hb.1 hd⟩

/-- C7 on the queue `[2, 3]` of capacity 3 stored from slot 1: `EnQueue 4`
writes slot 0. -/
theorem EnQueue_frame_witness :
    Inv { data := [1, 2, 3], cap := 3, curCap := 2, head := 1 } ∧
    ∃ s1, EnQueue { data := [1, 2, 3], cap := 3, curCap := 2, head := 1 } 4 = .ok (s1, none) ∧
      sliceGet s1.data 0 = .ok 4 ∧ s1.curCap = 3 :=
  ⟨⟨by decide, by decide, by decide, by decide, by decide, by decide⟩,
    (EnQueue_frame { data := [1, 2, 3], cap := 3, curCap := 2, head := 1 }
      ⟨by decide, by decide, by decide, by decide, by decide, by decide⟩ 4 (by decide)).imp
      (fun _ hx => ⟨hx.1, hx.2.1, hx.2.2.1⟩)⟩

/-- C8: on a state satisfying the invariant with `curCap > 0`, `DeQueue`
returns `nil` and nothing else, sets `head` to `(head + 1) mod cap`, lowers
`curCap` by one, and leaves `cap` and the whole store as they were. -/
theorem DeQueue_effect (s : circularQueue) (hs : Inv s) (h : 0 < s.curCap) :
    ∃ s1, DeQueue s = .ok (s1, none) ∧ s1.head = (s.head + 1) % s.cap ∧
      s1.curCap = s.curCap - 1 ∧ s1.cap = s.cap ∧ s1.data = s.data :=
  ⟨_, DeQueue_eq s hs (by omega), rfl, rfl, rfl, rfl⟩

/-- C8 on a full queue of capacity 3 whose oldest element is in the last slot:
`head` wraps from 2 to 0. -/
theorem DeQueue_effect_witness :
    Inv { data := [4, 5, 3], cap := 3, curCap := 3, head := 2 } ∧
    ∃ s1, DeQueue { data := [4, 5, 3], cap := 3, curCap := 3, head := 2 } = .ok (s1, none) ∧
      s1.head = 0 ∧ s1.curCap = 2 ∧ s1.cap = 3 ∧ s1.data = [4, 5, 3] :=
  ⟨⟨by decide, by decide, by decide, by decide, by decide, by decide⟩,
    DeQueue_effect { data := [4, 5, 3], cap := 3, curCap := 3, head := 2 }
      ⟨by decide, by decide, by decide, by decide, by decide, by decide⟩ (by decide)⟩

/-- C9: `Front` returns an error exactly when `curCap = 0`, and then returns
`(0, QueueEmptyErr)`; in a reachable state with `curCap ≠ 0` it returns
`(data[head], nil)`. In both cases the queue is left as it was. -/
theorem Front_result (c : Int) (hc : 0 ≤ c) (s : circularQueue) (hr : Reachable c s) :
    (∀ t : circularQueue, (∃ t1 x e, Front t = .ok (t1, x, some e)) ↔ t.curCap = 0) ∧
    (∀ t : circularQueue, t.curCap = 0 →
      Front t = .ok (t, 0, some (GoError.QueueEmptyErr "Queue is empty!"))) ∧
    (s.curCap ≠ 0 → ∃ x, sliceGet s.data s.head = .ok x ∧ Front s = .ok (s, x, none)) := by
  obtain ⟨hs, -⟩ := Reachable_Inv c hc s hr
  refine ⟨Front_err_iff, Front_empty, fun h => ⟨_, ?_, Front_eq s hs h⟩⟩
  have h1 := hs.len
  have h2 := hs.cur_nonneg
  have h3 := hs.cur_le
  have hh := hs.head_lt (by omega)
  exact sliceGet_eq s.data s.head hs.head_nonneg (by omega)

/-- C9 at the wrapped queue `[2, 3, 4]` of capacity 3 stored from slot 1. -/
theorem Front_result_witness :
    Reachable 3 { data := [4, 2, 3], cap := 3, curCap := 3, head := 1 } ∧
    ∃ x, sliceGet [4, 2, 3] 1 = .ok x ∧
      Front { data := [4, 2, 3], cap := 3, curCap := 3, head := 1 }
        = .ok ({ data := [4, 2, 3], cap := 3, curCap := 3, head := 1 }, x, none) :=
  ⟨⟨[.EnQueue 1, .EnQueue 2, .EnQueue 3, .DeQueue, .EnQueue 4], _, rfl⟩,
    (Front_result 3 (by decide) { data := [4, 2, 3], cap := 3, curCap := 3, head := 1 }
      ⟨[.EnQueue 1, .EnQueue 2, .EnQueue 3, .DeQueue, .EnQueue 4], _, rfl⟩).2.2 (by decide)⟩

/-- C10: `Rear` returns an error exactly when `curCap = 0`, and then returns
`(0, QueueEmptyErr)`; in the state reached by any sequence of calls on
`NewCircularQueue c`, if `curCap ≠ 0` it returns
`(data[(head + curCap - 1) mod cap], nil)` and that value is the one passed to
the most recent `EnQueue` of the sequence that returned `nil`. In both cases the
queue is left as it was. -/
theorem Rear_result (c : Int) (hc : 0 ≤ c) (ops : List Op) (s : circularQueue)
    (rs : List Ret) (hrun : runFresh c ops = .ok (s, rs)) :
    (∀ t : circularQueue, (∃ t1 x e, Rear t = .ok (t1, x, some e)) ↔ t.curCap = 0) ∧
    (∀ t : circularQueue, t.curCap = 0 →
      Rear t = .ok (t, 0, some (GoError.QueueEmptyErr "Queue is empty!"))) ∧
    (s.curCap ≠ 0 → ∃ x, sliceGet s.data ((s.head + s.curCap - 1) % s.cap) = .ok x ∧
      Rear s = .ok (s, x, none) ∧ lastEnQueued none ops rs = some x) := by
  obtain ⟨hs, -⟩ := Reachable_Inv c hc s ⟨ops, rs, hrun⟩
  refine ⟨Rear_err_iff, Rear_empty, fun h => ⟨_, ?_, Rear_eq s hs h, ?_⟩⟩
  · have h1 := hs.len
    have h2 := hs.cur_nonneg
    have h3 := hs.cur_le
    have hb := emod_bounds (s.head + s.curCap - 1) s.cap (by omega)
    exact sliceGet_eq s.data _ hb.1 (by omega)
  · obtain ⟨q, eq, hq, -, qk, -⟩ := Inv_new c hc (Reachable_fits c s ⟨ops, rs, hrun⟩).2
    simp only [runFresh, eq] at hrun
    have hl := run_last ops q s rs none hq (fun hq0 => absurd qk hq0) hrun h
    rw [← hl]
    exact contents_last s hs h

/-- C10 after `EnQueue(1); EnQueue(2); EnQueue(3); DeQueue(); EnQueue(4);
EnQueue(5); DeQueue()` on a queue of capacity 3: the second `EnQueue` after the
first `DeQueue` fails, and `Rear` returns 4. -/
theorem Rear_result_witness :
    runFresh 3 [.EnQueue 1, .EnQueue 2, .EnQueue 3, .DeQueue, .EnQueue 4, .EnQueue 5, .DeQueue]
      = .ok ({ data := [4, 2, 3], cap := 3, curCap := 2, head := 2 },
          [.err none, .err none, .err none, .err none, .err none,
            .err (some (GoError.NoFreeCapErr "Queue is full!")), .err none]) ∧
    ∃ x, sliceGet [4, 2, 3] 0 = .ok x ∧
      Rear { data := [4, 2, 3], cap := 3, curCap := 2, head := 2 }
        = .ok ({ data := [4, 2, 3], cap := 3, curCap := 2, head := 2 }, x, none) ∧
      lastEnQueued none
        [.EnQueue 1, .EnQueue 2, .EnQueue 3, .DeQueue, .EnQueue 4, .EnQueue 5, .DeQueue]
        [.err none, .err none, .err none, .err none, .err none,
          .err (some (GoError.NoFreeCapErr "Queue is full!")), .err none] = some x :=
  ⟨rfl, (Rear_result 3 (by decide)
      [.EnQueue 1, .EnQueue 2, .EnQueue 3, .DeQueue, .EnQueue 4, .EnQueue 5, .DeQueue]
      { data := [4, 2, 3], cap := 3, curCap := 2, head := 2 }
      [.err none, .err none, .err none, .err none, .err none,
        .err (some (GoError.NoFreeCapErr "Queue is full!")), .err none]
      rfl).2.2 (by decide)⟩

/-! ## Emptiness, fullness, capacity zero and absence of panics -/

/-- C11: in every reachable state `IsEmpty()` is true exactly when
`curCap = 0`, `IsFull()` is true exactly when `curCap = cap`, both return the
queue as they received it, both are true together only if `cap = 0`, and when
`cap = 0` both are true. -/
theorem IsEmpty_IsFull_result (c : Int) (hc : 0 ≤ c) (s : circularQueue)
    (hr : Reachable c s) :
    ((IsEmpty s).2 = true ↔ s.curCap = 0) ∧ ((IsFull s).2 = true ↔ s.curCap = s.cap) ∧
    (IsEmpty s).1 = s ∧ (IsFull s).1 = s ∧
    ((IsEmpty s).2 = true ∧ (IsFull s).2 = true → s.cap = 0) ∧
    (s.cap = 0 → (IsEmpty s).2 = true ∧ (IsFull s).2 = true) := by
  obtain ⟨hs, -⟩ := Reachable_Inv c hc s hr
  have h2 := hs.cur_nonneg
  have h3 := hs.cur_le
  refine ⟨by simp [IsEmpty], by simp [IsFull], rfl, rfl, ?_, ?_⟩
  · simp only [IsEmpty, IsFull, decide_eq_true_eq]
    rintro ⟨h0, hf⟩
    omega
  · simp only [IsEmpty, IsFull, decide_eq_true_eq]
    intro h0
    constructor <;> omega

/-- C11 at a queue of capacity 2 holding one element: neither empty nor full. -/
theorem IsEmpty_IsFull_result_witness :
    Reachable 2 { data := [7, 0], cap := 2, curCap := 1, head := 0 } ∧
    ((IsEmpty { data := [7, 0], cap := 2, curCap := 1, head := 0 }).2 = true ↔ (1 : Int) = 0) ∧
    ((IsFull { data := [7, 0], cap := 2, curCap := 1, head := 0 }).2 = true ↔ (1 : Int) = 2) :=
  ⟨⟨[.EnQueue 7], _, rfl⟩,
    (IsEmpty_IsFull_result 2 (by decide) { data := [7, 0], cap := 2, curCap := 1, head := 0 }
      ⟨[.EnQueue 7], _, rfl⟩).1,
    (IsEmpty_IsFull_result 2 (by decide) { data := [7, 0], cap := 2, curCap := 1, head := 0 }
      ⟨[.EnQueue 7], _, rfl⟩).2.1⟩

/-- One call on the queue of capacity zero returns without a panic, gives the
answer of `capZeroRet` and leaves the queue as it was. -/
theorem step_capZero (op : Op) :
    step { data := [], cap := 0, curCap := 0, head := 0 } op
      = .ok ({ data := [], cap := 0, curCap := 0, head := 0 }, capZeroRet op) := by
  cases op <;> rfl

theorem run_capZero (ops : List Op) :
    run { data := [], cap := 0, curCap := 0, head := 0 } ops
      = .ok ({ data := [], cap := 0, curCap := 0, head := 0 }, ops.map capZeroRet) := by
  induction ops with
  | nil => rfl
  | cons op ops ih => simp only [run, step_capZero, ih, List.map_cons]

/-- C12: on `NewCircularQueue(0)` every sequence of calls runs without a panic
(no modulo by zero, no access to the empty store) and leaves the queue as it
was built; every `EnQueue` returns the `NoFreeCapErr`, every `DeQueue`, `Front`
and `Rear` returns the `QueueEmptyErr`, and `IsEmpty` and `IsFull` return
true. -/
theorem capacity_zero_queue (ops : List Op) :
    runFresh 0 ops = .ok ({ data := [], cap := 0, curCap := 0, head := 0 }, ops.map capZeroRet) ∧
    (∀ v, capZeroRet (.EnQueue v) = Ret.err (some (GoError.NoFreeCapErr "Queue is full!"))) ∧
    capZeroRet .DeQueue = Ret.err (some (GoError.QueueEmptyErr "Queue is empty!")) ∧
    capZeroRet .Front = Ret.val 0 (some (GoError.QueueEmptyErr "Queue is empty!")) ∧
    capZeroRet .Rear = Ret.val 0 (some (GoError.QueueEmptyErr "Queue is empty!")) ∧
    capZeroRet .IsEmpty = Ret.bool true ∧ capZeroRet .IsFull = Ret.bool true := by
  refine ⟨?_, fun _ => rfl, rfl, rfl, rfl, rfl, rfl⟩
  have e : NewCircularQueue 0 = .ok { data := [], cap := 0, curCap := 0, head := 0 } := rfl
  simp only [runFresh, e, run_capZero]

/-- C13: in every reachable state no call panics: when `EnQueue` takes its
writing branch, and when `DeQueue` or `Rear` take their non-empty branch, `cap`
is positive, so the modulo is defined; the slot written by `EnQueue` and the
slots read by `Front` and `Rear` are positions of the store. -/
theorem no_abort (c : Int) (hc : 0 ≤ c) (s : circularQueue) (hr : Reachable c s) :
    (∀ op, ∃ s1 r, step s op = .ok (s1, r)) ∧
    (s.curCap ≠ s.cap → 0 < s.cap ∧
      ∃ i, goMod (s.head + s.curCap) s.cap = .ok i ∧ 0 ≤ i ∧ i < (s.data.length : Int)) ∧
    (s.curCap ≠ 0 → 0 < s.cap ∧ (∃ h, goMod (s.head + 1) s.cap = .ok h) ∧
      (0 ≤ s.head ∧ s.head < (s.data.length : Int)) ∧
      ∃ i, goMod (s.head + s.curCap - 1) s.cap = .ok i ∧ 0 ≤ i ∧ i < (s.data.length : Int)) := by
  obtain ⟨hs, -⟩ := Reachable_Inv c hc s hr
  obtain ⟨h1, h2, h3, h4, h5, h6⟩ := hs
  refine ⟨fun op => ?_, fun h => ?_, fun h => ?_⟩
  · obtain ⟨s1, r, e, -, -⟩ := step_Inv s ⟨h1, h2, h3, h4, h5, h6⟩ op
    exact ⟨s1, r, e⟩
  · have hcap : 0 < s.cap := by omega
    have hb := emod_bounds (s.head + s.curCap) s.cap hcap
    exact ⟨hcap, _, goMod_eq _ _ (by omega) hcap, hb.1, by omega⟩
  · have hcap : 0 < s.cap := by omega
    have hh := h5 hcap
    have hb := emod_bounds (s.head + s.curCap - 1) s.cap hcap
    exact ⟨hcap, ⟨_, goMod_eq _ _ (by omega) hcap⟩, ⟨h4, by omega⟩,
      _, goMod_eq _ _ (by omega) hcap, hb.1, by omega⟩

/-- C13 at the wrapped full queue `[2, 3, 4]` of capacity 3 stored from slot 1. -/
theorem no_abort_witness :
    Reachable 3 { data := [4, 2, 3], cap := 3, curCap := 3, head := 1 } ∧
    ∀ op, ∃ s1 r, step { data := [4, 2, 3], cap := 3, curCap := 3, head := 1 } op = .ok (s1, r) :=
  ⟨⟨[.EnQueue 1, .EnQueue 2, .EnQueue 3, .DeQueue, .EnQueue 4], _, rfl⟩,
    (no_abort 3 (by decide) { data := [4, 2, 3], cap := 3, curCap := 3, head := 1 }
      ⟨[.EnQueue 1, .EnQueue 2, .EnQueue 3, .DeQueue, .EnQueue 4], _, rfl⟩).1⟩

/-- The store keeps its length in every reachable state. -/
theorem Reachable_len (c : Int) (hc : 0 ≤ c) (s : circularQueue) (h : Reachable c s) :
    (s.data.length : Int) = c := by
  obtain ⟨hs, hcap⟩ := Reachable_Inv c hc s h
  rw [hs.len, hcap]

/-- C14, as stated, fails: the capacity `2^62` is non-negative, and
`NewCircularQueue` does not return a queue for it, because `make` panics with a
length out of range. -/
theorem NewCircularQueue_rejects_large :
    (0 : Int) ≤ 4611686018427387904 ∧
    NewCircularQueue 4611686018427387904 = .error .makeSliceLen :=
  ⟨by decide, rfl⟩

/-- C14, amended: for `c ≥ 0` with `8 * c ≤ maxAlloc` (a length that `make`
accepts), `NewCircularQueue c` returns a queue whose store is `c` zeros, with
`cap = c`, `curCap = 0` and `head = 0`; in every state reachable from it `cap`
and the length of the store are still `c`. For every other `c` no queue is
built. -/
theorem NewCircularQueue_result (c : Int) (hc : 0 ≤ c) (hb : 8 * c ≤ maxAlloc) :
    (∃ q, NewCircularQueue c = .ok q ∧ q.data = List.replicate c.toNat 0 ∧
      (q.data.length : Int) = c ∧ q.cap = c ∧ q.curCap = 0 ∧ q.head = 0) ∧
    (∀ s, Reachable c s → s.cap = c ∧ (s.data.length : Int) = c) ∧
    (∀ (k : Int) (q : circularQueue), NewCircularQueue k = .ok q →
      0 ≤ k ∧ 8 * k ≤ maxAlloc) := by
  refine ⟨?_, ?_, NewCircularQueue_fits⟩
  · refine ⟨{ data := List.replicate c.toNat 0, cap := c, curCap := 0, head := 0 }, ?_, rfl,
      ?_, rfl, rfl, rfl⟩
    · unfold NewCircularQueue
      rw [makeSlice_eq c hc hb]
    · simp only [List.length_replicate]
      omega
  · intro s hr
    exact ⟨(Reachable_Inv c hc s hr).2, Reachable_len c hc s hr⟩

/-- C14, amended, for capacity 3. -/
theorem NewCircularQueue_result_witness :
    ∃ q, NewCircularQueue 3 = .ok q ∧ q.data = [0, 0, 0] ∧
      (q.data.length : Int) = 3 ∧ q.cap = 3 ∧ q.curCap = 0 ∧ q.head = 0 :=
  (NewCircularQueue_result 3 (by decide) (by decide)).1

/-! ## The non-wrapping revision: what a returning call has done -/

namespace NoWrap

theorem nw_Inv_new (c : Int) (hc : 0 ≤ c) (hb : 8 * c ≤ maxAlloc) :
    ∃ q, NewCircularQueue c = .ok q ∧ Inv q ∧ q.cap = c ∧ q.curCap = 0 ∧ q.head = 0 := by
  refine ⟨{ data := List.replicate c.toNat 0, cap := c, curCap := 0, head := 0 }, ?_, ?_,
    rfl, rfl, rfl⟩
  · unfold NewCircularQueue
    rw [makeSlice_eq c hc hb]
  · constructor <;> simp <;> omega

/-- A queue is only built for a capacity the runtime accepts. -/
theorem nw_new_fits (c : Int) (q : CircularQueue) (h : NewCircularQueue c = .ok q) :
    0 ≤ c ∧ 8 * c ≤ maxAlloc := by
  unfold NewCircularQueue at h
  cases hm : makeSlice c with
  | error f => rw [hm] at h; simp at h
  | ok d => exact ⟨(makeSlice_ok c d hm).1, (makeSlice_ok c d hm).2.1⟩

theorem nw_sliceSet_ok (data d : List Int) (i v : Int) (h : sliceSet data i v = .ok d) :
    0 ≤ i ∧ i < (data.length : Int) ∧ d = data.set i.toNat v := by
  unfold sliceSet at h
  split at h
  · next hb =>
    simp only [Except.ok.injEq] at h
    exact ⟨hb.1, hb.2, h.symm⟩
  · simp at h

theorem nw_sliceGet_ok (data : List Int) (i x : Int) (h : sliceGet data i = .ok x) :
    0 ≤ i ∧ i < (data.length : Int) ∧ x = data.getD i.toNat 0 := by
  unfold sliceGet at h
  split at h
  · next hb =>
    simp only [Except.ok.injEq] at h
    exact ⟨hb.1, hb.2, h.symm⟩
  · simp at h

theorem nw_EnQueue_ok (s s1 : CircularQueue) (v : Int) (e : Option GoError)
    (h : EnQueue s v = .ok (s1, e)) :
    (s.curCap = s.cap ∧ s1 = s ∧ e = some NewNoFreeCapErr) ∨
    (s.curCap ≠ s.cap ∧ 0 ≤ s.head + s.curCap ∧ s.head + s.curCap < (s.data.length : Int) ∧
      s1 = { s with data := s.data.set (s.head + s.curCap).toNat v, curCap := s.curCap + 1 } ∧
      e = none) := by
  unfold EnQueue at h
  by_cases hf : s.curCap = s.cap
  · rw [if_neg (by simpa using hf)] at h
    simp only [Except.ok.injEq, Prod.mk.injEq] at h
    exact Or.inl ⟨hf, h.1.symm, h.2.symm⟩
  · rw [if_pos hf] at h
    cases hw : sliceSet s.data (s.head + s.curCap) v with
    | error f => rw [hw] at h; simp at h
    | ok d =>
      rw [hw] at h
      simp only [Except.ok.injEq, Prod.mk.injEq] at h
      obtain ⟨b0, b1, rfl⟩ := nw_sliceSet_ok _ _ _ _ hw
      exact Or.inr ⟨hf, b0, b1, h.1.symm, h.2.symm⟩

theorem nw_DeQueue_eq (s : CircularQueue) :
    DeQueue s = .ok (if s.curCap ≠ 0
      then ({ s with head := s.head + 1, curCap := s.curCap - 1 }, none)
      else (s, some NewQueueEmptyErr)) := by
  unfold DeQueue
  split <;> rfl

theorem nw_Front_ok (s s1 : CircularQueue) (x : Int) (e : Option GoError)
    (h : Front s = .ok (s1, x, e)) :
    s1 = s ∧ ((s.curCap = 0 ∧ x = 0 ∧ e = some NewQueueEmptyErr) ∨
      (s.curCap ≠ 0 ∧ 0 ≤ s.head ∧ s.head < (s.data.length : Int) ∧
        x = s.data.getD s.head.toNat 0 ∧ e = none)) := by
  unfold Front at h
  by_cases hf : s.curCap = 0
  · rw [if_neg (by simpa using hf)] at h
    simp only [Except.ok.injEq, Prod.mk.injEq] at h
    exact ⟨h.1.symm, Or.inl ⟨hf, h.2.1.symm, h.2.2.symm⟩⟩
  · rw [if_pos hf] at h
    cases hw : sliceGet s.data s.head with
    | error f => rw [hw] at h; simp at h
    | ok d =>
      rw [hw] at h
      simp only [Except.ok.injEq, Prod.mk.injEq] at h
      obtain ⟨b0, b1, rfl⟩ := nw_sliceGet_ok _ _ _ hw
      exact ⟨h.1.symm, Or.inr ⟨hf, b0, b1, h.2.1.symm, h.2.2.symm⟩⟩

theorem nw_Rear_ok (s s1 : CircularQueue) (x : Int) (e : Option GoError)
    (h : Rear s = .ok (s1, x, e)) :
    s1 = s ∧ ((s.curCap = 0 ∧ x = 0 ∧ e = some NewQueueEmptyErr) ∨
      (s.curCap ≠ 0 ∧ 0 ≤ s.head + s.curCap - 1 ∧
        s.head + s.curCap - 1 < (s.data.length : Int) ∧
        x = s.data.getD (s.head + s.curCap - 1).toNat 0 ∧ e = none)) := by
  unfold Rear at h
  by_cases hf : s.curCap = 0
  · rw [if_neg (by simpa using hf)] at h
    simp only [Except.ok.injEq, Prod.mk.injEq] at h
    exact ⟨h.1.symm, Or.inl ⟨hf, h.2.1.symm, h.2.2.symm⟩⟩
  · rw [if_pos hf] at h
    cases hw : sliceGet s.data (s.head + s.curCap - 1) with
    | error f => rw [hw] at h; simp at h
    | ok d =>
      rw [hw] at h
      simp only [Except.ok.injEq, Prod.mk.injEq] at h
      obtain ⟨b0, b1, rfl⟩ := nw_sliceGet_ok _ _ _ hw
      exact ⟨h.1.symm, Or.inr ⟨hf, b0, b1, h.2.1.symm, h.2.2.symm⟩⟩

/-- The shape of a returning call: the new state and the returned value. -/
theorem nw_step_ok (s s1 : CircularQueue) (op : Op) (r : Ret) (h : step s op = .ok (s1, r)) :
    (∃ v, op = .EnQueue v ∧ ∃ e, EnQueue s v = .ok (s1, e) ∧ r = .err e) ∨
    (op = .DeQueue ∧ ∃ e, DeQueue s = .ok (s1, e) ∧ r = .err e) ∨
    (op = .Front ∧ ∃ x e, Front s = .ok (s1, x, e) ∧ r = .val x e) ∨
    (op = .Rear ∧ ∃ x e, Rear s = .ok (s1, x, e) ∧ r = .val x e) ∨
    (op = .IsEmpty ∧ s1 = s ∧ r = .bool (decide (s.curCap = 0))) ∨
    (op = .IsFull ∧ s1 = s ∧ r = .bool (decide (s.curCap = s.cap))) := by
  cases op with
  | EnQueue v =>
    simp only [step] at h
    cases hw : EnQueue s v with
    | error f => rw [hw] at h; simp at h
    | ok p =>
      obtain ⟨t, e⟩ := p
      rw [hw] at h
      simp only [Except.ok.injEq, Prod.mk.injEq] at h
      obtain ⟨rfl, rfl⟩ := h
      exact Or.inl ⟨v, rfl, e, hw, rfl⟩
  | DeQueue =>
    simp only [step] at h
    cases hw : DeQueue s with
    | error f => rw [hw] at h; simp at h
    | ok p =>
      obtain ⟨t, e⟩ := p
      rw [hw] at h
      simp only [Except.ok.injEq, Prod.mk.injEq] at h
      obtain ⟨rfl, rfl⟩ := h
      exact Or.inr (Or.inl ⟨rfl, e, rfl, rfl⟩)
  | Front =>
    simp only [step] at h
    cases hw : Front s with
    | error f => rw [hw] at h; simp at h
    | ok p =>
      obtain ⟨t, x, e⟩ := p
      rw [hw] at h
      simp only [Except.ok.injEq, Prod.mk.injEq] at h
      obtain ⟨rfl, rfl⟩ := h
      exact Or.inr (Or.inr (Or.inl ⟨rfl, x, e, rfl, rfl⟩))
  | Rear =>
    simp only [step] at h
    cases hw : Rear s with
    | error f => rw [hw] at h; simp at h
    | ok p =>
      obtain ⟨t, x, e⟩ := p
      rw [hw] at h
      simp only [Except.ok.injEq, Prod.mk.injEq] at h
      obtain ⟨rfl, rfl⟩ := h
      exact Or.inr (Or.inr (Or.inr (Or.inl ⟨rfl, x, e, rfl, rfl⟩)))
  | IsEmpty =>
    simp only [step, IsEmpty, Except.ok.injEq, Prod.mk.injEq] at h
    exact Or.inr (Or.inr (Or.inr (Or.inr (Or.inl ⟨rfl, h.1.symm, h.2.symm⟩))))
  | IsFull =>
    simp only [step, IsFull, Except.ok.injEq, Prod.mk.injEq] at h
    exact Or.inr (Or.inr (Or.inr (Or.inr (Or.inr ⟨rfl, h.1.symm, h.2.symm⟩))))

theorem nw_run_cons_inv (s s2 : CircularQueue) (op : Op) (ops : List Op) (rs : List Ret)
    (e : run s (op :: ops) = .ok (s2, rs)) :
    ∃ s1 r rs1, step s op = .ok (s1, r) ∧ run s1 ops = .ok (s2, rs1) ∧ rs = r :: rs1 := by
  simp only [run] at e
  cases hst : step s op with
  | error f => rw [hst] at e; simp at e
  | ok p =>
    obtain ⟨t, r⟩ := p
    rw [hst] at e
    simp only at e
    cases hrun : run t ops with
    | error f => rw [hrun] at e; simp at e
    | ok q =>
      obtain ⟨t1, rs1⟩ := q
      rw [hrun] at e
      simp only [Except.ok.injEq, Prod.mk.injEq] at e
      obtain ⟨rfl, rfl⟩ := e
      exact ⟨t, r, rs1, rfl, hrun, rfl⟩

/-- A returning call keeps the invariant and the capacity; `head + curCap`
grows by one exactly on a successful `EnQueue`, and `head` grows by one exactly
on a successful `DeQueue`. -/
theorem nw_step_Inv (s s1 : CircularQueue) (op : Op) (r : Ret) (hs : Inv s)
    (h : step s op = .ok (s1, r)) :
    Inv s1 ∧ s1.cap = s.cap ∧
    s1.head + s1.curCap
      = s.head + s.curCap + ((if (enqueuedBy op r).isSome then 1 else 0 : Nat) : Int) ∧
    s1.head = s.head + ((if dequeuedBy op r then 1 else 0 : Nat) : Int) := by
  obtain ⟨h1, h2, h4, h5⟩ := hs
  rcases nw_step_ok s s1 op r h with ⟨v, rfl, e, he, rfl⟩ | ⟨rfl, e, he, rfl⟩ |
    ⟨rfl, x, e, he, rfl⟩ | ⟨rfl, x, e, he, rfl⟩ | ⟨rfl, rfl, rfl⟩ | ⟨rfl, rfl, rfl⟩
  · rcases nw_EnQueue_ok s s1 v e he with ⟨-, rfl, rfl⟩ | ⟨hf, b0, b1, rfl, rfl⟩
    · exact ⟨⟨h1, h2, h4, h5⟩, rfl, by simp [enqueuedBy], by simp [dequeuedBy]⟩
    · refine ⟨⟨?_, ?_, ?_, ?_⟩, rfl, ?_, ?_⟩
      · simpa using h1
      · simp only; omega
      · exact h4
      · simp only; omega
      · simp only [enqueuedBy, Option.isSome_some, if_true, Nat.cast_one]; omega
      · simp [dequeuedBy]
  · rw [nw_DeQueue_eq] at he
    simp only [Except.ok.injEq] at he
    by_cases hf : s.curCap = 0
    · rw [if_neg (by simpa using hf)] at he
      simp only [Prod.mk.injEq] at he
      obtain ⟨rfl, rfl⟩ := he
      exact ⟨⟨h1, h2, h4, h5⟩, rfl, by simp [enqueuedBy], by simp [dequeuedBy]⟩
    · rw [if_pos hf] at he
      simp only [Prod.mk.injEq] at he
      obtain ⟨rfl, rfl⟩ := he
      refine ⟨⟨h1, ?_, ?_, ?_⟩, rfl, ?_, ?_⟩
      · simp only; omega
      · simp only; omega
      · simp only; omega
      · simp only [enqueuedBy, Option.isSome_none, Bool.false_eq_true, if_false]; omega
      · simp [dequeuedBy]
  · obtain ⟨rfl, -⟩ := nw_Front_ok s s1 x e he
    exact ⟨⟨h1, h2, h4, h5⟩, rfl, by simp [enqueuedBy], by simp [dequeuedBy]⟩
  · obtain ⟨rfl, -⟩ := nw_Rear_ok s s1 x e he
    exact ⟨⟨h1, h2, h4, h5⟩, rfl, by simp [enqueuedBy], by simp [dequeuedBy]⟩
  · exact ⟨⟨h1, h2, h4, h5⟩, rfl, by simp [enqueuedBy], by simp [dequeuedBy]⟩
  · exact ⟨⟨h1, h2, h4, h5⟩, rfl, by simp [enqueuedBy], by simp [dequeuedBy]⟩

/-- A returning sequence of calls keeps the invariant and the capacity, and
counts its successful `EnQueue` calls in `head + curCap` and its successful
`DeQueue` calls in `head`. -/
theorem nw_run_Inv (ops : List Op) : ∀ (s s2 : CircularQueue) (rs : List Ret), Inv s →
    run s ops = .ok (s2, rs) →
    Inv s2 ∧ s2.cap = s.cap ∧
    s2.head + s2.curCap = s.head + s.curCap + (countEnQueued ops rs : Int) ∧
    s2.head = s.head + (countDeQueued ops rs : Int) := by
  induction ops with
  | nil =>
    intro s s2 rs hs e
    simp only [run, Except.ok.injEq, Prod.mk.injEq] at e
    obtain ⟨rfl, rfl⟩ := e
    exact ⟨hs, rfl, by simp [countEnQueued], by simp [countDeQueued]⟩
  | cons op ops ih =>
    intro s s2 rs hs e
    obtain ⟨s1, r, rs1, e1, e2, rfl⟩ := nw_run_cons_inv s s2 op ops rs e
    obtain ⟨hs1, c1, n1, d1⟩ := nw_step_Inv s s1 op r hs e1
    obtain ⟨hs2, c2, n2, d2⟩ := ih s1 s2 rs1 hs1 e2
    refine ⟨hs2, by rw [c2, c1], ?_, ?_⟩
    · simp only [countEnQueued, Nat.cast_add]
      omega
    · simp only [countDeQueued, Nat.cast_add]
      omega

/-- Every state reached without a panic satisfies the invariant, has the
capacity the queue was built with, and counts the successful calls. -/
theorem nw_runFresh_Inv (c : Int) (ops : List Op) (s : CircularQueue) (rs : List Ret)
    (h : runFresh c ops = .ok (s, rs)) :
    0 ≤ c ∧ Inv s ∧ s.cap = c ∧ s.head + s.curCap = (countEnQueued ops rs : Int) ∧
    s.head = (countDeQueued ops rs : Int) := by
  unfold runFresh at h
  cases hq : NewCircularQueue c with
  | error f => rw [hq] at h; simp at h
  | ok q =>
    rw [hq] at h
    simp only at h
    obtain ⟨hc, hb⟩ := nw_new_fits c q hq
    obtain ⟨q1, eq, hq1, qc, qk, qh⟩ := nw_Inv_new c hc hb
    rw [hq] at eq
    simp only [Except.ok.injEq] at eq
    subst eq
    obtain ⟨hs, c1, n1, d1⟩ := nw_run_Inv ops q s rs hq1 h
    exact ⟨hc, hs, by rw [c1, qc], by rw [n1, qk, qh]; omega, by rw [d1, qh]; omega⟩

theorem nw_EnQueue_fault (s : CircularQueue) (v : Int) (hf : s.curCap ≠ s.cap)
    (hout : ¬ (0 ≤ s.head + s.curCap ∧ s.head + s.curCap < (s.data.length : Int))) :
    EnQueue s v = .error .indexOutOfRange := by
  unfold EnQueue
  rw [if_pos hf]
  simp only [sliceSet]
  rw [if_neg hout]

theorem nw_Front_eq (s : CircularQueue) (hs : Inv s) (h : s.curCap ≠ 0) :
    Front s = .ok (s, s.data.getD s.head.toNat 0, none) := by
  obtain ⟨h1, h2, h4, h5⟩ := hs
  unfold Front
  rw [if_pos h, sliceGet_eq s.data s.head h4 (by omega)]

theorem nw_Rear_eq (s : CircularQueue) (hs : Inv s) (h : s.curCap ≠ 0) :
    Rear s = .ok (s, s.data.getD (s.head + s.curCap - 1).toNat 0, none) := by
  obtain ⟨h1, h2, h4, h5⟩ := hs
  unfold Rear
  rw [if_pos h, sliceGet_eq s.data (s.head + s.curCap - 1) (by omega) (by omega)]

/-! ## The non-wrapping revision: where it leaves the store -/

/-- C16: on `NewCircularQueue(3)` of the non-wrapping revision the calls
`EnQueue(1)`, `EnQueue(2)`, `EnQueue(3)`, `DeQueue()` return `nil` and leave a
queue that is not full; `EnQueue(4)` then computes the index
`head + curCap = 3 = len(data)` and panics with an index out of range. -/
theorem nw_wraparound_defect :
    ∃ s rs, runFresh 3 [.EnQueue 1, .EnQueue 2, .EnQueue 3, .DeQueue] = .ok (s, rs) ∧
      rs = [.err none, .err none, .err none, .err none] ∧
      s.curCap ≠ s.cap ∧ (s.data.length : Int) ≤ s.head + s.curCap ∧
      sliceSet s.data (s.head + s.curCap) 4 = .error .indexOutOfRange ∧
      EnQueue s 4 = .error .indexOutOfRange ∧
      runFresh 3 [.EnQueue 1, .EnQueue 2, .EnQueue 3, .DeQueue, .EnQueue 4]
        = .error .indexOutOfRange :=
  ⟨{ data := [1, 2, 3], cap := 3, curCap := 2, head := 1 }, _, rfl, rfl, by decide, by decide,
    rfl, rfl, rfl⟩

/-- C17, as stated, fails: after four `EnQueue` calls and one `DeQueue` on a
queue of capacity 4 the queue is not full and `EnQueue` panics with an index
out of range, while `head = 1` does not exceed `cap / 2 = 2`. -/
theorem nw_fault_before_midpoint :
    Reachable 4 { data := [1, 2, 3, 4], cap := 4, curCap := 3, head := 1 } ∧
    (3 : Int) ≠ 4 ∧
    EnQueue { data := [1, 2, 3, 4], cap := 4, curCap := 3, head := 1 } 5
      = .error .indexOutOfRange ∧
    ¬ ((1 : Int) > 4 / 2) :=
  ⟨⟨[.EnQueue 1, .EnQueue 2, .EnQueue 3, .EnQueue 4, .DeQueue], _, rfl⟩, by decide, rfl,
    by decide⟩

/-- C17, amended: in every state reached without a panic in which `EnQueue` on
a non-full queue indexes outside the store, `head ≥ 1`, the index
`head + curCap` is exactly `cap = len(data)`, and the call panics. -/
theorem nw_fault_needs_dequeue (c : Int) (s : CircularQueue) (v : Int) (hr : Reachable c s)
    (hf : s.curCap ≠ s.cap)
    (hout : ¬ (0 ≤ s.head + s.curCap ∧ s.head + s.curCap < (s.data.length : Int))) :
    1 ≤ s.head ∧ s.head + s.curCap = s.cap ∧ s.cap = (s.data.length : Int) ∧
    EnQueue s v = .error .indexOutOfRange := by
  obtain ⟨ops, rs, hrun⟩ := hr
  obtain ⟨-, ⟨h1, h2, h4, h5⟩, -, -, -⟩ := nw_runFresh_Inv c ops s rs hrun
  have hidx : s.head + s.curCap = s.cap := by
    by_contra hne
    exact hout ⟨by omega, by omega⟩
  exact ⟨by omega, hidx, h1.symm, nw_EnQueue_fault s v hf hout⟩

/-- C17, amended, at the state of the counterexample. -/
theorem nw_fault_needs_dequeue_witness :
    Reachable 4 { data := [1, 2, 3, 4], cap := 4, curCap := 3, head := 1 } ∧
    ((1 : Int) ≤ 1 ∧ (1 : Int) + 3 = 4 ∧ (4 : Int) = (([1, 2, 3, 4] : List Int).length : Int) ∧
      EnQueue { data := [1, 2, 3, 4], cap := 4, curCap := 3, head := 1 } 5
        = .error .indexOutOfRange) :=
  ⟨⟨[.EnQueue 1, .EnQueue 2, .EnQueue 3, .EnQueue 4, .DeQueue], _, rfl⟩,
    nw_fault_needs_dequeue 4 { data := [1, 2, 3, 4], cap := 4, curCap := 3, head := 1 } 5
      ⟨[.EnQueue 1, .EnQueue 2, .EnQueue 3, .EnQueue 4, .DeQueue], _, rfl⟩
      (by decide) (by decide)⟩

/-- C18, as stated, fails for capacity 0: on the freshly built queue zero
`DeQueue` calls have succeeded, and `EnQueue` does not index the store: it
returns the `NoFreeCapErr`. -/
theorem nw_capacity_zero_no_fault :
    runFresh 0 [] = .ok ({ data := [], cap := 0, curCap := 0, head := 0 }, []) ∧
    ((countDeQueued [] [] : Nat) : Int) = 0 ∧
    EnQueue { data := [], cap := 0, curCap := 0, head := 0 } 7
      = .ok ({ data := [], cap := 0, curCap := 0, head := 0 },
          some (GoError.NoFreeCapErr "Queue is full!")) :=
  ⟨rfl, rfl, rfl⟩

/-- C18, amended: after any sequence of calls that returned without a panic,
`head + curCap` is the number of `EnQueue` calls that returned `nil` and is at
most `cap = c`, so at most `c` `EnQueue` calls have succeeded; `head` is the
number of `DeQueue` calls that returned `nil`; for `c ≥ 1`, once `c`
`DeQueue` calls have succeeded every `EnQueue` panics with an index out of
range; and for `c = 0` every `EnQueue` returns the `NoFreeCapErr` without
indexing. -/
theorem nw_enqueue_budget (c : Int) (ops : List Op) (s : CircularQueue) (rs : List Ret)
    (hrun : runFresh c ops = .ok (s, rs)) :
    s.head + s.curCap = (countEnQueued ops rs : Int) ∧ s.head + s.curCap ≤ s.cap ∧
    s.cap = c ∧ (countEnQueued ops rs : Int) ≤ c ∧
    s.head = (countDeQueued ops rs : Int) ∧
    (1 ≤ c → (countDeQueued ops rs : Int) = c →
      ∀ v, EnQueue s v = .error .indexOutOfRange) ∧
    (c = 0 → ∀ v, EnQueue s v = .ok (s, some (GoError.NoFreeCapErr "Queue is full!"))) := by
  obtain ⟨-, ⟨h1, h2, h4, h5⟩, hcap, hn, hd⟩ := nw_runFresh_Inv c ops s rs hrun
  refine ⟨hn, h5, hcap, by omega, hd, ?_, ?_⟩
  · intro hc hall v
    exact nw_EnQueue_fault s v (by omega) (fun hb => by omega)
  · intro hc v
    have hfull : s.curCap = s.cap := by omega
    unfold EnQueue
    rw [if_neg (by simpa using hfull)]
    rfl

/-- C18, amended, on a queue of capacity 2 after two `EnQueue` and two
`DeQueue` calls, with a failing `DeQueue` and a `Front` after them. -/
theorem nw_enqueue_budget_witness :
    runFresh 2 [.EnQueue 7, .DeQueue, .EnQueue 8, .DeQueue, .DeQueue, .Front]
      = .ok ({ data := [7, 8], cap := 2, curCap := 0, head := 2 },
          [.err none, .err none, .err none, .err none,
            .err (some (GoError.QueueEmptyErr "Queue is empty!")),
            .val 0 (some (GoError.QueueEmptyErr "Queue is empty!"))]) ∧
    ∀ v, EnQueue { data := [7, 8], cap := 2, curCap := 0, head := 2 } v
      = .error .indexOutOfRange :=
  ⟨rfl, (nw_enqueue_budget 2 [.EnQueue 7, .DeQueue, .EnQueue 8, .DeQueue, .DeQueue, .Front]
      { data := [7, 8], cap := 2, curCap := 0, head := 2 }
      [.err none, .err none, .err none, .err none,
        .err (some (GoError.QueueEmptyErr "Queue is empty!")),
        .val 0 (some (GoError.QueueEmptyErr "Queue is empty!"))]
      rfl).2.2.2.2.2.1 (by decide) rfl⟩

/-- C20: in every state of the non-wrapping revision reached without a panic,
every call other than `EnQueue` returns; with `curCap > 0` the index `head` of
`Front` and the index `head + curCap - 1` of `Rear` are positions of the store
and both calls return a value with `nil`; `DeQueue`, `IsEmpty` and `IsFull`
return in every state whatever the store holds, give the same answer on any
other store, and leave the store as it is. -/
theorem nw_only_EnQueue_faults (c : Int) (s : CircularQueue) (hr : Reachable c s) :
    (∀ op, (∀ v, op ≠ Op.EnQueue v) → ∃ s1 r, step s op = .ok (s1, r)) ∧
    (0 < s.curCap →
      (0 ≤ s.head ∧ s.head < (s.data.length : Int)) ∧
      (0 ≤ s.head + s.curCap - 1 ∧ s.head + s.curCap - 1 < (s.data.length : Int)) ∧
      (∃ x, sliceGet s.data s.head = .ok x ∧ Front s = .ok (s, x, none)) ∧
      (∃ y, sliceGet s.data (s.head + s.curCap - 1) = .ok y ∧ Rear s = .ok (s, y, none))) ∧
    (∀ t : CircularQueue, ∃ t1 e, DeQueue t = .ok (t1, e) ∧ t1.data = t.data ∧
      ∀ d, DeQueue { t with data := d } = .ok ({ t1 with data := d }, e)) ∧
    (∀ (t : CircularQueue) (d : List Int),
      IsEmpty { t with data := d } = ({ t with data := d }, (IsEmpty t).2) ∧
      IsFull { t with data := d } = ({ t with data := d }, (IsFull t).2)) := by
  obtain ⟨ops, rs, hrun⟩ := hr
  obtain ⟨-, hs, -, -, -⟩ := nw_runFresh_Inv c ops s rs hrun
  have h1 := hs.len
  have h2 := hs.cur_nonneg
  have h4 := hs.head_nonneg
  have h5 := hs.sum_le
  refine ⟨?_, ?_, ?_, ?_⟩
  · intro op hop
    cases op with
    | EnQueue v => exact absurd rfl (hop v)
    | DeQueue => exact ⟨_, _, by simp only [step, nw_DeQueue_eq]; rfl⟩
    | Front =>
      by_cases h : s.curCap = 0
      · exact ⟨s, .val 0 (some NewQueueEmptyErr), by
          simp only [step, Front]; rw [if_neg (by simpa using h)]⟩
      · exact ⟨_, _, by simp only [step, nw_Front_eq s hs h]; rfl⟩
    | Rear =>
      by_cases h : s.curCap = 0
      · exact ⟨s, .val 0 (some NewQueueEmptyErr), by
          simp only [step, Rear]; rw [if_neg (by simpa using h)]⟩
      · exact ⟨_, _, by simp only [step, nw_Rear_eq s hs h]; rfl⟩
    | IsEmpty => exact ⟨_, _, rfl⟩
    | IsFull => exact ⟨_, _, rfl⟩
  · intro hpos
    have hne : s.curCap ≠ 0 := by omega
    exact ⟨⟨h4, by omega⟩, ⟨by omega, by omega⟩,
      ⟨_, sliceGet_eq s.data s.head h4 (by omega), nw_Front_eq s hs hne⟩,
      ⟨_, sliceGet_eq s.data _ (by omega) (by omega), nw_Rear_eq s hs hne⟩⟩
  · intro t
    by_cases h : t.curCap = 0
    · refine ⟨t, some NewQueueEmptyErr, ?_, rfl, fun d => ?_⟩
      · unfold DeQueue; rw [if_neg (by simpa using h)]
      · unfold DeQueue; rw [if_neg (by simpa using h)]
    · refine ⟨{ t with head := t.head + 1, curCap := t.curCap - 1 }, none, ?_, rfl, fun d => ?_⟩
      · unfold DeQueue; rw [if_pos h]
      · unfold DeQueue; rw [if_pos (by simpa using h)]
  · intro t d
    exact ⟨rfl, rfl⟩

/-- C20 at the queue of capacity 3 after three `EnQueue` calls and one
`DeQueue`, the state in which `EnQueue` panics. -/
theorem nw_only_EnQueue_faults_witness :
    Reachable 3 { data := [1, 2, 3], cap := 3, curCap := 2, head := 1 } ∧
    (∃ x, sliceGet [1, 2, 3] 1 = .ok x ∧
      Front { data := [1, 2, 3], cap := 3, curCap := 2, head := 1 }
        = .ok ({ data := [1, 2, 3], cap := 3, curCap := 2, head := 1 }, x, none)) ∧
    (∃ y, sliceGet [1, 2, 3] (1 + 2 - 1) = .ok y ∧
      Rear { data := [1, 2, 3], cap := 3, curCap := 2, head := 1 }
        = .ok ({ data := [1, 2, 3], cap := 3, curCap := 2, head := 1 }, y, none)) :=
  ⟨⟨[.EnQueue 1, .EnQueue 2, .EnQueue 3, .DeQueue], _, rfl⟩,
    ((nw_only_EnQueue_faults 3 { data := [1, 2, 3], cap := 3, curCap := 2, head := 1 }
      ⟨[.EnQueue 1, .EnQueue 2, .EnQueue 3, .DeQueue], _, rfl⟩).2.1 (by decide)).2.2⟩

/-! ## The two revisions up to the first panic -/

theorem nw_Inv_reduceHead (s : CircularQueue) (hs : Inv s) : Circqueue.Inv (reduceHead s) := by
  obtain ⟨h1, h2, h4, h5⟩ := hs
  by_cases hc : s.cap = 0
  · have hh : s.head = 0 := by omega
    refine ⟨h1, h2, by simp only [reduceHead]; omega, ?_, ?_, ?_⟩
    · simp [reduceHead, hh]
    · intro hpos; simp only [reduceHead] at hpos; omega
    · intro _; simp [reduceHead, hh]
  · have hpos : 0 < s.cap := by omega
    have hb := emod_bounds s.head s.cap hpos
    refine ⟨h1, h2, by simp only [reduceHead]; omega, hb.1, fun _ => hb.2, ?_⟩
    intro h0; simp only [reduceHead] at h0; omega

theorem nw_reduceHead_small (s : CircularQueue) (h0 : 0 ≤ s.head) (h1 : s.head < s.cap) :
    reduceHead s = { data := s.data, cap := s.cap, curCap := s.curCap, head := s.head } := by
  simp only [reduceHead, Int.emod_eq_of_lt h0 h1]

/-- A call that returns in the non-wrapping revision returns the same value in
the wrapping revision, and the states stay related by `reduceHead`. -/
theorem nw_step_reduceHead (s s1 : CircularQueue) (op : Op) (r : Ret) (hs : Inv s)
    (h : step s op = .ok (s1, r)) :
    Circqueue.step (reduceHead s) op = .ok (reduceHead s1, r) := by
  have hi := nw_Inv_reduceHead s hs
  obtain ⟨h1, h2, h4, h5⟩ := hs
  rcases nw_step_ok s s1 op r h with ⟨v, rfl, e, he, rfl⟩ | ⟨rfl, e, he, rfl⟩ |
    ⟨rfl, x, e, he, rfl⟩ | ⟨rfl, x, e, he, rfl⟩ | ⟨rfl, rfl, rfl⟩ | ⟨rfl, rfl, rfl⟩
  · rcases nw_EnQueue_ok s s1 v e he with ⟨hf, hs1, rfl⟩ | ⟨hf, b0, b1, rfl, rfl⟩
    · rw [hs1]
      simp only [Circqueue.step, Circqueue.EnQueue_full (reduceHead s) v hf]
      rfl
    · have hne : (reduceHead s).curCap ≠ (reduceHead s).cap := hf
      simp only [Circqueue.step, Circqueue.EnQueue_eq (reduceHead s) hi v hne]
      have hm : (s.head % s.cap + s.curCap) % s.cap = s.head + s.curCap := by
        rw [Int.emod_add_emod]
        exact Int.emod_eq_of_lt b0 (by omega)
      simp only [reduceHead, hm]
  · rw [nw_DeQueue_eq] at he
    simp only [Except.ok.injEq] at he
    by_cases hf : s.curCap = 0
    · rw [if_neg (by simpa using hf)] at he
      simp only [Prod.mk.injEq] at he
      obtain ⟨hs1, rfl⟩ := he
      rw [← hs1]
      simp only [Circqueue.step, Circqueue.DeQueue_empty (reduceHead s) hf]
      rfl
    · rw [if_pos hf] at he
      simp only [Prod.mk.injEq] at he
      obtain ⟨rfl, rfl⟩ := he
      have hne : (reduceHead s).curCap ≠ 0 := hf
      simp only [Circqueue.step, Circqueue.DeQueue_eq (reduceHead s) hi hne]
      simp only [reduceHead, Int.emod_add_emod]
  · obtain ⟨hs1, hcase⟩ := nw_Front_ok s s1 x e he
    rw [hs1]
    rcases hcase with ⟨hf, rfl, rfl⟩ | ⟨hf, b0, b1, rfl, rfl⟩
    · simp only [Circqueue.step, Circqueue.Front_empty (reduceHead s) hf]
      rfl
    · have hne : (reduceHead s).curCap ≠ 0 := hf
      simp only [Circqueue.step, Circqueue.Front_eq (reduceHead s) hi hne]
      rw [nw_reduceHead_small s h4 (by omega)]
  · obtain ⟨hs1, hcase⟩ := nw_Rear_ok s s1 x e he
    rw [hs1]
    rcases hcase with ⟨hf, rfl, rfl⟩ | ⟨hf, b0, b1, rfl, rfl⟩
    · simp only [Circqueue.step, Circqueue.Rear_empty (reduceHead s) hf]
      rfl
    · have hne : (reduceHead s).curCap ≠ 0 := hf
      simp only [Circqueue.step, Circqueue.Rear_eq (reduceHead s) hi hne]
      rw [nw_reduceHead_small s h4 (by omega)]
      simp only
      rw [Int.emod_eq_of_lt b0 (by omega)]
  · rfl
  · rfl

theorem nw_run_reduceHead (ops : List Op) : ∀ (s s2 : CircularQueue) (rs : List Ret), Inv s →
    run s ops = .ok (s2, rs) → Circqueue.run (reduceHead s) ops = .ok (reduceHead s2, rs) := by
  induction ops with
  | nil =>
    intro s s2 rs _ e
    simp only [run, Except.ok.injEq, Prod.mk.injEq] at e
    obtain ⟨rfl, rfl⟩ := e
    rfl
  | cons op ops ih =>
    intro s s2 rs hs e
    obtain ⟨s1, r, rs1, e1, e2, rfl⟩ := nw_run_cons_inv s s2 op ops rs e
    obtain ⟨hs1, -, -, -⟩ := nw_step_Inv s s1 op r hs e1
    simp only [Circqueue.run, nw_step_reduceHead s s1 op r hs e1, ih s1 s2 rs1 hs1 e2]

theorem nw_contents_reduceHead (s : CircularQueue) (hs : Inv s) :
    Circqueue.contents (reduceHead s) = contents s := by
  obtain ⟨h1, h2, h4, h5⟩ := hs
  simp only [Circqueue.contents, contents, reduceHead]
  apply List.map_congr_left
  intro i hi
  rw [List.mem_range] at hi
  rw [Int.emod_add_emod, Int.emod_eq_of_lt (by omega) (by omega)]

/-- C19: if a sequence of calls on `NewCircularQueue c` returns without a panic
in the non-wrapping revision, the same sequence on the wrapping revision returns
the same value for every call and ends in a state with the same `curCap`, the
same logical contents, the same `cap` and store, and with `head` reduced modulo
`cap`. -/
theorem nw_agrees_until_fault (c : Int) (ops : List Op) (s : CircularQueue) (rs : List Ret)
    (h : runFresh c ops = .ok (s, rs)) :
    ∃ t, Circqueue.runFresh c ops = .ok (t, rs) ∧ t.curCap = s.curCap ∧
      Circqueue.contents t = contents s ∧ t.cap = s.cap ∧ t.data = s.data ∧
      t.head = s.head % s.cap := by
  obtain ⟨-, hs, -, -, -⟩ := nw_runFresh_Inv c ops s rs h
  refine ⟨reduceHead s, ?_, rfl, nw_contents_reduceHead s hs, rfl, rfl, rfl⟩
  unfold runFresh at h
  cases hq : NewCircularQueue c with
  | error f => rw [hq] at h; simp at h
  | ok q =>
    rw [hq] at h
    simp only at h
    obtain ⟨hc, hb⟩ := nw_new_fits c q hq
    obtain ⟨q1, eq, hq1, -, -, -⟩ := nw_Inv_new c hc hb
    rw [hq] at eq
    simp only [Except.ok.injEq] at eq
    subst eq
    have hnew : Circqueue.NewCircularQueue c = .ok (reduceHead q) := by
      unfold NewCircularQueue at hq
      rw [makeSlice_eq c hc hb] at hq
      simp only [Except.ok.injEq] at hq
      subst hq
      unfold Circqueue.NewCircularQueue
      rw [makeSlice_eq c hc hb]
      simp [reduceHead]
    simp only [Circqueue.runFresh, hnew]
    exact nw_run_reduceHead ops q s rs hq1 h

/-- C19 on a queue of capacity 1 after `EnQueue(5); DeQueue(); IsEmpty()`: the
calls return the same values, the contents are empty in both revisions, and the
`head` fields are 1 and 0. -/
theorem nw_agrees_until_fault_witness :
    runFresh 1 [.EnQueue 5, .DeQueue, .IsEmpty]
      = .ok ({ data := [5], cap := 1, curCap := 0, head := 1 },
          [.err none, .err none, .bool true]) ∧
    Circqueue.runFresh 1 [.EnQueue 5, .DeQueue, .IsEmpty]
      = .ok ({ data := [5], cap := 1, curCap := 0, head := 0 },
          [.err none, .err none, .bool true]) ∧
    ∃ t, Circqueue.runFresh 1 [.EnQueue 5, .DeQueue, .IsEmpty]
        = .ok (t, [.err none, .err none, .bool true]) ∧ t.curCap = 0 ∧
      Circqueue.contents t = contents { data := [5], cap := 1, curCap := 0, head := 1 } ∧
      t.cap = 1 ∧ t.data = [5] ∧ t.head = 1 % 1 :=
  ⟨rfl, rfl, nw_agrees_until_fault 1 [.EnQueue 5, .DeQueue, .IsEmpty]
    { data := [5], cap := 1, curCap := 0, head := 1 } [.err none, .err none, .bool true] rfl⟩

end NoWrap

end Circqueue
